import Mathlib

/-!
Verification of the tradelens backend (FastAPI + Supabase trading journal).

This file gives a shallow embedding, in Lean 4, of the parts of the code that
the specification's claims are about:

* `app/utils/sessions.py`       — trading-session classifier
* `app/api/routes/trades.py`    — cursor codec, timestamp helpers, CSV import,
                                  trade listing endpoint
* `app/services/db.py`          — `fetch_trades_for_user` (keyset pagination +
                                  image annotation) and `fetch_trade_calendar`

Modelling conventions:

* Python strings are modelled as Lean `String` (unicode scalar values) or
  `List Char` where structural recursion is needed.
* Python `float` values are modelled as `ℚ` (exact arithmetic); the claims
  under consideration only involve values where binary-float rounding is
  not at issue.
* Timezone-aware instants are modelled as an integer count of seconds; a
  Python `datetime` is modelled by its wall-clock seconds plus an optional
  UTC-offset (`none` = naive).
* The Supabase/PostgREST backing store is modelled as a Lean list of records;
  a filtered/ordered/limited select is modelled by `List.filter`, a sort and
  `List.take`.  ISO-8601 timestamp strings produced by one writer compare
  lexicographically exactly as the underlying instants compare, so the
  store's timestamp ordering is modelled by the lexicographic `String` order.
-/

/-! ## Session classifier (`app/utils/sessions.py`) -/

namespace Sessions

/-- `after_or_equal` from `infer_session_from_entry` (sessions.py line 25):
`(h > hour) or (h == hour and m >= minute)` on the local wall-clock. -/
def after_or_equal (h m hour minute : Nat) : Bool :=
  decide (h > hour) || (decide (h = hour) && decide (m ≥ minute))

/-- `before` from `infer_session_from_entry` (sessions.py line 28):
`(h < hour) or (h == hour and m < minute)`. -/
def before (h m hour minute : Nat) : Bool :=
  decide (h < hour) || (decide (h = hour) && decide (m < minute))

/-- The branch chain of `infer_session_from_entry` (sessions.py lines 31-48),
acting on the local wall-clock hour and minute.  The trailing `"Break"` is
the source's defensive fallback (line 48). -/
def classifyLocal (h m : Nat) : String :=
  if after_or_equal h m 6 30 && before h m 13 0 then "NY"
  else if after_or_equal h m 0 0 && before h m 6 30 then "London"
  else if after_or_equal h m 13 0 && before h m 15 0 then "Break"
  else if after_or_equal h m 15 0 then "Asia"
  else "Break"

/-- True exactly when none of the four explicit branches of
`infer_session_from_entry` fires, i.e. when the trailing fallback
(line 48) would be reached. -/
def fallbackReached (h m : Nat) : Bool :=
  !(after_or_equal h m 6 30 && before h m 13 0) &&
  !(after_or_equal h m 0 0 && before h m 6 30) &&
  !(after_or_equal h m 13 0 && before h m 15 0) &&
  !(after_or_equal h m 15 0)

end Sessions

/-! ## Python datetimes

A `datetime` is wall-clock civil time plus an optional fixed UTC offset
(`tz = none` models a naive datetime).  `wall` counts the wall-clock fields
as seconds (a civil timestamp); the instant denoted by an aware datetime is
`wall - offset`. -/

structure PyDatetime where
  wall : Int
  tz : Option Int
  deriving DecidableEq, Repr

namespace PyDatetime

/-- The instant (UTC seconds) denoted by an aware datetime. -/
def utcSeconds (dt : PyDatetime) (off : Int) : Int := dt.wall - off

end PyDatetime

/-- Hour-of-day of a civil timestamp in seconds (`Int.emod` keeps the
representative in `[0, 86400)` also for instants before the epoch). -/
def hourOfDay (w : Int) : Nat := ((w.emod 86400).toNat) / 3600

/-- Minute-of-hour of a civil timestamp in seconds. -/
def minuteOfHour (w : Int) : Nat := (((w.emod 86400).toNat) / 60) % 60

namespace Sessions

/-- `infer_session_from_entry` (sessions.py lines 6-48).  The conversion
`entry_at.astimezone(PST_TZ)` is modelled by adding the reference zone's
UTC offset at the given instant; the offset function `laOff` (DST-dependent
for America/Los_Angeles) is a parameter of the model. -/
def infer_session_from_entry (laOff : Int → Int) (dt : PyDatetime) :
    Except String String :=
  match dt.tz with
  | none => .error "entry_at must be timezone-aware (UTC recommended)"
  | some off =>
    let utc := dt.utcSeconds off
    let localWall := utc + laOff utc
    .ok (classifyLocal (hourOfDay localWall) (minuteOfHour localWall))

end Sessions

/-! ## `_ensure_aware` and the create/update trade entry points
(`app/api/routes/trades.py` lines 51-55, 199-235, 402-414) -/

/-- `_ensure_aware` (trades.py lines 51-55): a naive datetime is reinterpreted
as UTC (same wall-clock fields, offset `+00:00` attached). -/
def _ensure_aware (dt : PyDatetime) : PyDatetime :=
  match dt.tz with
  | none => { dt with tz := some 0 }
  | some _ => dt

/-- The `takenAt`/`exitAt` fields of `CreateTradeBody`/`UpdateTradeBody`
(schemas/trades.py) that the timestamp handling of the endpoints reads. -/
structure TradeBodyTimes where
  takenAt : Option PyDatetime
  exitAt : Option PyDatetime

/-- Steps 1-2 of `create_trade` (trades.py lines 200-208): resolve `taken_at`
(falling back to "now", an aware UTC datetime) and make `exit_at` aware when
present. -/
def create_trade_times (body : TradeBodyTimes) (now : Int) :
    PyDatetime × Option PyDatetime :=
  let taken_at :=
    match body.takenAt with
    | some d => _ensure_aware d
    | none => { wall := now, tz := some 0 }
  (taken_at, body.exitAt.map _ensure_aware)

/-- The timestamp handling of `update_trade` (trades.py lines 402-414):
`taken_at`/`exit_at` are made aware only when provided. -/
def update_trade_times (body : TradeBodyTimes) :
    Option PyDatetime × Option PyDatetime :=
  (body.takenAt.map _ensure_aware, body.exitAt.map _ensure_aware)

/-! ## Claim C2 — session classifier partition -/

/-- Every branch of `classifyLocal` (the trailing fallback included)
returns one of the four session labels. -/
theorem classifyLocal_mem_labels (h m : Nat) :
    Sessions.classifyLocal h m = "London" ∨ Sessions.classifyLocal h m = "NY" ∨
    Sessions.classifyLocal h m = "Break" ∨ Sessions.classifyLocal h m = "Asia" := by
  unfold Sessions.classifyLocal
  split_ifs <;> simp

/-- C2: for every local wall-clock time, `infer_session_from_entry` labels by
half-open interval membership — [00:00,06:30) → London, [06:30,13:00) → NY,
[13:00,15:00) → Break, [15:00,24:00) → Asia — the four intervals partition the
day, the trailing fallback branch is unreachable, and on every timezone-aware
instant the function returns one of the four labels. -/
theorem c2_session_intervals_partition (h m : Nat) (hh : h < 24) (hm : m < 60) :
    (Sessions.classifyLocal h m = "London" ↔ 60 * h + m < 390)
    ∧ (Sessions.classifyLocal h m = "NY" ↔ 390 ≤ 60 * h + m ∧ 60 * h + m < 780)
    ∧ (Sessions.classifyLocal h m = "Break" ↔ 780 ≤ 60 * h + m ∧ 60 * h + m < 900)
    ∧ (Sessions.classifyLocal h m = "Asia" ↔ 900 ≤ 60 * h + m)
    ∧ Sessions.fallbackReached h m = false
    ∧ (∀ (laOff : Int → Int) (dt : PyDatetime) (off : Int), dt.tz = some off →
        ∃ s, Sessions.infer_session_from_entry laOff dt = .ok s ∧
          (s = "London" ∨ s = "NY" ∨ s = "Break" ∨ s = "Asia")) := by
  have key : ∀ p : Fin 24, ∀ q : Fin 60,
      (Sessions.classifyLocal p.val q.val = "London" ↔ 60 * p.val + q.val < 390)
      ∧ (Sessions.classifyLocal p.val q.val = "NY" ↔
          390 ≤ 60 * p.val + q.val ∧ 60 * p.val + q.val < 780)
      ∧ (Sessions.classifyLocal p.val q.val = "Break" ↔
          780 ≤ 60 * p.val + q.val ∧ 60 * p.val + q.val < 900)
      ∧ (Sessions.classifyLocal p.val q.val = "Asia" ↔ 900 ≤ 60 * p.val + q.val)
      ∧ Sessions.fallbackReached p.val q.val = false := by decide
  obtain ⟨k1, k2, k3, k4, k5⟩ := key ⟨h, hh⟩ ⟨m, hm⟩
  refine ⟨k1, k2, k3, k4, k5, ?_⟩
  intro laOff dt off hoff
  refine ⟨Sessions.classifyLocal
      (hourOfDay (dt.utcSeconds off + laOff (dt.utcSeconds off)))
      (minuteOfHour (dt.utcSeconds off + laOff (dt.utcSeconds off))),
    ?_, classifyLocal_mem_labels _ _⟩
  unfold Sessions.infer_session_from_entry
  rw [hoff]

/-- Witness for C2: concrete boundary instant 06:30 local. -/
theorem c2_session_intervals_partition_witness :
    (6 : Nat) < 24 ∧ (30 : Nat) < 60 ∧ Sessions.classifyLocal 6 30 = "NY" :=
  ⟨by decide, by decide,
    ((c2_session_intervals_partition 6 30 (by decide) (by decide)).2.1).2 (by decide)⟩

/-! ## Claim C10 — naive timestamps are coerced, not rejected -/

/-- C10: `_ensure_aware` reinterprets a naive datetime as UTC (same wall-clock
fields, offset attached); everything `create_trade`/`update_trade` store is
timezone-aware, and the session classifier's naive-rejection branch is
unreachable from those endpoints. -/
theorem c10_naive_coerced (dt : PyDatetime) (laOff : Int → Int)
    (body : TradeBodyTimes) (now : Int) :
    ((_ensure_aware dt).tz.isSome ∧ (dt.tz = none → _ensure_aware dt = { dt with tz := some 0 }))
    ∧ (∃ s, Sessions.infer_session_from_entry laOff (create_trade_times body now).1 = .ok s)
    ∧ (create_trade_times body now).1.tz.isSome
    ∧ (∀ e ∈ (create_trade_times body now).2, e.tz.isSome)
    ∧ (∀ t ∈ (update_trade_times body).1,
        (∃ s, Sessions.infer_session_from_entry laOff t = .ok s) ∧ t.tz.isSome)
    ∧ (∀ e ∈ (update_trade_times body).2, e.tz.isSome) := by
  have haware : ∀ d : PyDatetime, (_ensure_aware d).tz.isSome := by
    intro d
    unfold _ensure_aware
    match hd : d.tz with
    | none => simp
    | some o => simp [hd]
  have hok : ∀ d : PyDatetime, d.tz.isSome →
      ∃ s, Sessions.infer_session_from_entry laOff d = .ok s := by
    intro d hd
    match hdt : d.tz with
    | none => rw [hdt] at hd; simp at hd
    | some o =>
      exact ⟨_, by unfold Sessions.infer_session_from_entry; rw [hdt]⟩
  refine ⟨⟨haware dt, ?_⟩, ?_, ?_, ?_, ?_, ?_⟩
  · intro hnone
    unfold _ensure_aware
    rw [hnone]
  · refine hok _ ?_
    unfold create_trade_times
    match body.takenAt with
    | some d => exact haware d
    | none => simp
  · unfold create_trade_times
    match body.takenAt with
    | some d => exact haware d
    | none => simp
  · intro e he
    unfold create_trade_times at he
    simp only [List.mem_map, Option.mem_map] at he
    obtain ⟨d, _, rfl⟩ := he
    exact haware d
  · intro t ht
    unfold update_trade_times at ht
    simp only [Option.mem_map] at ht
    obtain ⟨d, _, rfl⟩ := ht
    exact ⟨hok _ (haware d), haware d⟩
  · intro e he
    unfold update_trade_times at he
    simp only [Option.mem_map] at he
    obtain ⟨d, _, rfl⟩ := he
    exact haware d

/-! ## CSV timestamp normalizer (`_parse_csv_timestamp`, trades.py lines 57-84)

`datetime.strptime` with the two fixed formats `"%m/%d/%Y %H:%M:%S %z"` and
`"%m/%d/%Y %H:%M:%S"` is embedded directly: 1-2 digit month/day/hour/minute/
second fields, a 4 digit year, runs of whitespace for whitespace in the
format, and for `%z` the forms `±HH:MM`, `±HHMM`, optional seconds, or `Z`.
Value validation performed by the `datetime`/`timezone` constructors
(month 1-12, day within the month, year ≥ 1, hour ≤ 23, minute/second ≤ 59,
UTC offset strictly less than 24h) is folded into the parse: for these two
fixed formats a string is accepted by CPython exactly when it is accepted
here (fractional `%z` seconds, which cannot occur in the vendor data, are
not modelled).  Instants are represented as seconds relative to the epoch;
civil to day-count conversion uses the standard Gregorian formula. -/

/-- The characters Python `str.strip` removes and `\s` matches (ASCII part). -/
def isSpaceChar (c : Char) : Bool :=
  c = ' ' || c = '\t' || c = '\n' || c = '\r' || c = '\x0b' || c = '\x0c'

/-- Python `str.strip()` on a character list. -/
def pyStrip (s : List Char) : List Char :=
  ((s.dropWhile isSpaceChar).reverse.dropWhile isSpaceChar).reverse

/-- Numeric value of a decimal digit character. -/
def digitVal (c : Char) : Nat := c.toNat - 48

/-- Greedy 1-2 digit numeric field (`%m`, `%d`, `%H`, `%M`, `%S`). -/
def digits2 : List Char → Option (Nat × List Char)
  | [] => none
  | [c] => if c.isDigit then some (digitVal c, []) else none
  | c1 :: c2 :: rest =>
    if c1.isDigit then
      if c2.isDigit then some (10 * digitVal c1 + digitVal c2, rest)
      else some (digitVal c1, c2 :: rest)
    else none

/-- Exactly-4-digit numeric field (`%Y`). -/
def digits4 : List Char → Option (Nat × List Char)
  | a :: b :: c :: d :: rest =>
    if a.isDigit && b.isDigit && c.isDigit && d.isDigit then
      some (((digitVal a * 10 + digitVal b) * 10 + digitVal c) * 10 + digitVal d, rest)
    else none
  | _ => none

/-- Require a literal character. -/
def expectChar (c : Char) : List Char → Option (List Char)
  | [] => none
  | x :: rest => if x = c then some rest else none

/-- One-or-more whitespace characters (`\s+`, what whitespace in a strptime
format compiles to). -/
def ws1 : List Char → Option (List Char)
  | [] => none
  | c :: rest => if isSpaceChar c then some (rest.dropWhile isSpaceChar) else none

/-- Proleptic-Gregorian leap year. -/
def isLeapYear (y : Nat) : Bool := (y % 4 = 0 && y % 100 ≠ 0) || y % 400 = 0

/-- Length of a month, as the `datetime` constructor validates the day. -/
def daysInMonth (y mo : Nat) : Nat :=
  if mo = 2 then (if isLeapYear y then 29 else 28)
  else if mo = 4 || mo = 6 || mo = 9 || mo = 11 then 30
  else 31

/-- Days from the epoch 1970-01-01 to civil date y-mo-d (y ≥ 1). -/
def daysFromCivil (y mo d : Nat) : Int :=
  let yp := if mo ≤ 2 then y - 1 else y
  let era := yp / 400
  let yoe := yp % 400
  let mp := if 2 < mo then mo - 3 else mo + 9
  let doy := (153 * mp + 2) / 5 + (d - 1)
  let doe := yoe * 365 + yoe / 4 - yoe / 100 + doy
  ((era * 146097 + doe : Nat) : Int) - 719468

/-- The wall-clock fields captured by `"%m/%d/%Y %H:%M:%S"`. -/
structure CivilFields where
  y : Nat
  mo : Nat
  d : Nat
  h : Nat
  mi : Nat
  s : Nat
  deriving DecidableEq, Repr

/-- Seconds from the epoch to a civil wall-clock time. -/
def civilSecondsOfFields (f : CivilFields) : Int :=
  daysFromCivil f.y f.mo f.d * 86400 + ((f.h * 3600 + f.mi * 60 + f.s : Nat) : Int)

/-- Convenience: epoch seconds of a UTC instant given by its civil fields. -/
def utcInstant (y mo d h mi s : Nat) : Int :=
  civilSecondsOfFields ⟨y, mo, d, h, mi, s⟩

/-- `"%m/%d/%Y %H:%M:%S"`: structural match plus the constructor-level value
validation. -/
def parseMDYHMS (s : List Char) : Option (CivilFields × List Char) := do
  let (mo, s) ← digits2 s
  let s ← expectChar '/' s
  let (d, s) ← digits2 s
  let s ← expectChar '/' s
  let (y, s) ← digits4 s
  let s ← ws1 s
  let (h, s) ← digits2 s
  let s ← expectChar ':' s
  let (mi, s) ← digits2 s
  let s ← expectChar ':' s
  let (sec, s) ← digits2 s
  if 1 ≤ mo && mo ≤ 12 && 1 ≤ d && d ≤ daysInMonth y mo && 1 ≤ y &&
      h ≤ 23 && mi ≤ 59 && sec ≤ 59 then
    some (⟨y, mo, d, h, mi, sec⟩, s)
  else none

/-- Two mandatory digits. -/
def digits2exact : List Char → Option (Nat × List Char)
  | a :: b :: rest =>
    if a.isDigit && b.isDigit then some (10 * digitVal a + digitVal b, rest) else none
  | _ => none

/-- `%z`: `±HH[:]MM` with optional `[:']SS`, or `Z`; the `timezone`
constructor requires the absolute offset to be under 24 hours.  Returns the
offset in seconds. -/
def parseOffset : List Char → Option (Int × List Char)
  | [] => none
  | c :: rest =>
    if c = 'Z' then some (0, rest)
    else if c = '+' || c = '-' then do
      let (hh, r1) ← digits2exact rest
      let r2 := match r1 with
        | ':' :: r => r
        | r => r
      let (mm, r3) ← digits2exact r2
      if mm ≤ 59 then
        let (ss, r5) : Nat × List Char :=
          match r3 with
          | ':' :: a :: b :: r => if a.isDigit && b.isDigit && 10 * digitVal a + digitVal b ≤ 59
              then (10 * digitVal a + digitVal b, r) else (0, ':' :: a :: b :: r)
          | a :: b :: r => if a.isDigit && b.isDigit && 10 * digitVal a + digitVal b ≤ 59
              then (10 * digitVal a + digitVal b, r) else (0, a :: b :: r)
          | r => (0, r)
        let total : Nat := hh * 3600 + mm * 60 + ss
        if total < 86400 then
          some (if c = '-' then -(total : Int) else (total : Int), r5)
        else none
      else none
    else none

/-- Full match against `"%m/%d/%Y %H:%M:%S %z"`: the fields and the offset. -/
def parseFull1 (s : List Char) : Option (CivilFields × Int) := do
  let (f, rest) ← parseMDYHMS s
  let rest ← ws1 rest
  let (off, rest2) ← parseOffset rest
  if rest2 = [] then some (f, off) else none

/-- Full match against `"%m/%d/%Y %H:%M:%S"` (no offset). -/
def parseFull2 (s : List Char) : Option CivilFields := do
  let (f, rest) ← parseMDYHMS s
  if rest = [] then some f else none

/-- `datetime.strptime(s, "%m/%d/%Y %H:%M:%S %z").astimezone(timezone.utc)`
as an epoch instant. -/
def strptimeTzUtc (s : List Char) : Option Int :=
  (parseFull1 s).map (fun p => civilSecondsOfFields p.1 - p.2)

/-- `datetime.strptime(s, "%m/%d/%Y %H:%M:%S")` as naive civil seconds. -/
def strptimeNaive (s : List Char) : Option Int :=
  (parseFull2 s).map civilSecondsOfFields

/-- `_parse_csv_timestamp` (trades.py lines 57-84).  `.ok none` models the
early `return None`; `.error ()` models the uncaught `ValueError`; the
Tradovate fallback attaches the fixed UTC-8 zone (`timezone(timedelta(hours=-8))`)
and converts to UTC, i.e. adds 8 hours to the naive wall-clock. -/
def _parse_csv_timestamp (s? : Option (List Char)) : Except Unit (Option Int) :=
  match s? with
  | none => .ok none
  | some s0 =>
    if s0 = [] then .ok none
    else
      let s := pyStrip s0
      match strptimeTzUtc s with
      | some t => .ok (some t)
      | none =>
        match strptimeNaive s with
        | some w => .ok (some (w + 8 * 3600))
        | none => .error ()

/-! ## Claim C6 — CSV timestamp normalization -/

/-- C6: `_parse_csv_timestamp` returns the UTC instant when the input matches
`month/day/year hour:minute:second ±HH:MM`; interprets an offset-free match at
the fixed UTC-8 offset; fails when neither pattern matches; and yields no
value (not an error) on absent or empty input.  The two vendor examples from
the spec are checked concretely. -/
theorem c6_csv_timestamp_normalization (s : List Char) :
    (_parse_csv_timestamp none = .ok none)
    ∧ (_parse_csv_timestamp (some []) = .ok none)
    ∧ (∀ f off, s ≠ [] → parseFull1 (pyStrip s) = some (f, off) →
        _parse_csv_timestamp (some s) = .ok (some (civilSecondsOfFields f - off)))
    ∧ (∀ f, s ≠ [] → parseFull1 (pyStrip s) = none → parseFull2 (pyStrip s) = some f →
        _parse_csv_timestamp (some s) = .ok (some (civilSecondsOfFields f + 8 * 3600)))
    ∧ (s ≠ [] → parseFull1 (pyStrip s) = none → parseFull2 (pyStrip s) = none →
        _parse_csv_timestamp (some s) = .error ())
    ∧ _parse_csv_timestamp (some ("10/22/2025 00:20:00 -07:00".data)) =
        .ok (some (utcInstant 2025 10 22 7 20 0))
    ∧ _parse_csv_timestamp (some ("12/09/2025 11:50:16".data)) =
        .ok (some (utcInstant 2025 12 9 19 50 16)) := by
  refine ⟨rfl, rfl, ?_, ?_, ?_, by rfl, by rfl⟩
  · intro f off hs h1
    simp [_parse_csv_timestamp, strptimeTzUtc, h1, hs]
  · intro f hs h1 h2
    simp [_parse_csv_timestamp, strptimeTzUtc, strptimeNaive, h1, h2, hs]
  · intro hs h1 h2
    simp [_parse_csv_timestamp, strptimeTzUtc, strptimeNaive, h1, h2, hs]

/-- Witness for C6 at the first vendor example. -/
theorem c6_csv_timestamp_normalization_witness :
    _parse_csv_timestamp (some ("10/22/2025 00:20:00 -07:00".data)) =
      .ok (some (utcInstant 2025 10 22 7 20 0)) :=
  (c6_csv_timestamp_normalization []).2.2.2.2.2.1

/-! ## A generic sort, modelling the store's ORDER BY

`sortLe le` is insertion sort by a boolean relation; it models the ordered
select of the backing store (§6 of the spec): the result is a permutation of
the input that is pairwise `le`-sorted. -/

def insertLe {α : Type} (le : α → α → Bool) (x : α) : List α → List α
  | [] => [x]
  | y :: ys => if le x y then x :: y :: ys else y :: insertLe le x ys

def sortLe {α : Type} (le : α → α → Bool) : List α → List α
  | [] => []
  | x :: xs => insertLe le x (sortLe le xs)

theorem insertLe_perm {α : Type} (le : α → α → Bool) (x : α) (l : List α) :
    List.Perm (insertLe le x l) (x :: l) := by
  induction l with
  | nil => rfl
  | cons y ys ih =>
    unfold insertLe
    split
    · rfl
    · exact (List.Perm.cons y ih).trans (List.Perm.swap x y ys)

theorem sortLe_perm {α : Type} (le : α → α → Bool) (l : List α) :
    List.Perm (sortLe le l) l := by
  induction l with
  | nil => rfl
  | cons x xs ih =>
    exact (insertLe_perm le x (sortLe le xs)).trans (List.Perm.cons x ih)

theorem insertLe_pairwise {α : Type} (le : α → α → Bool)
    (htot : ∀ a b, le a b = true ∨ le b a = true)
    (htrans : ∀ a b c, le a b = true → le b c = true → le a c = true)
    (x : α) (l : List α) (hl : List.Pairwise (fun a b => le a b = true) l) :
    List.Pairwise (fun a b => le a b = true) (insertLe le x l) := by
  induction l with
  | nil => simp [insertLe]
  | cons y ys ih =>
    unfold insertLe
    rcases List.pairwise_cons.mp hl with ⟨hy, hys⟩
    split
    · rename_i hxy
      refine List.pairwise_cons.mpr ⟨?_, hl⟩
      intro z hz
      rcases List.mem_cons.mp hz with hz | hz
      · subst hz; exact hxy
      · exact htrans x y z hxy (hy z hz)
    · rename_i hxy
      have hyx : le y x = true := by
        rcases htot x y with h | h
        · exact absurd h hxy
        · exact h
      refine List.pairwise_cons.mpr ⟨?_, ih hys⟩
      intro z hz
      have hz2 := (insertLe_perm le x ys).mem_iff.mp hz
      rcases List.mem_cons.mp hz2 with hz2 | hz2
      · subst hz2; exact hyx
      · exact hy z hz2

theorem sortLe_pairwise {α : Type} (le : α → α → Bool)
    (htot : ∀ a b, le a b = true ∨ le b a = true)
    (htrans : ∀ a b c, le a b = true → le b c = true → le a c = true)
    (l : List α) :
    List.Pairwise (fun a b => le a b = true) (sortLe le l) := by
  induction l with
  | nil => simp [sortLe]
  | cons x xs ih => exact insertLe_pairwise le htot htrans x (sortLe le xs) ih

/-! ## The `trades` table and the shared filter semantics

One record type carries the columns that `fetch_trades_for_user` and
`fetch_trade_calendar` select.  A `pnl` cell is either a stored number or raw
text (the defensive `float(...)` in the calendar pass also accepts numeric
strings). -/

inductive PnlCell where
  | num (q : ℚ)
  | text (s : String)
  deriving DecidableEq, Repr

structure TradeRec where
  id : String
  user_id : String
  sort_at : String
  taken_at : Option String
  created_at : String
  note : Option String
  outcome : Option String
  session : Option String
  strategies : Option (List String)
  symbol : Option String
  pnl : Option PnlCell
  deriving DecidableEq, Repr

/-- The four multi-valued filter dimensions of `list_trades` /
`get_trade_calendar` (trades.py lines 99-104, 171-176). -/
structure Filters where
  outcome : List String
  session : List String
  strategy : List String
  symbol : List String

/-- Python `str.upper()` (the source only uppercases ASCII ticker symbols). -/
def pyUpper (s : String) : String := String.mk (s.data.map Char.toUpper)

/-- The filter block shared by `fetch_trades_for_user` (db.py lines 214-233)
and `fetch_trade_calendar` (db.py lines 650-667): `in_` filters are an OR
within a dimension and AND across dimensions, symbols are uppercased first,
and `strategies` uses contains-all; a SQL `IN`/`@>` test on a NULL column is
not satisfied. -/
def applyFilters (f : Filters) (r : TradeRec) : Bool :=
  (f.outcome.isEmpty || (match r.outcome with
    | some v => f.outcome.contains v
    | none => false))
  && (f.session.isEmpty || (match r.session with
    | some v => f.session.contains v
    | none => false))
  && (f.symbol.isEmpty || (match r.symbol with
    | some v => (f.symbol.map pyUpper).contains v
    | none => false))
  && (f.strategy.isEmpty || (match r.strategies with
    | some l => f.strategy.all (fun s => l.contains s)
    | none => false))

/-! ## Calendar aggregation (`fetch_trade_calendar`, db.py lines 616-697) -/

/-- Decimal digit span. -/
def spanDigits (s : List Char) : List Char × List Char :=
  (s.takeWhile Char.isDigit, s.dropWhile Char.isDigit)

def digitsToNat (ds : List Char) : Nat := ds.foldl (fun a c => 10 * a + digitVal c) 0

/-- Python `float(str)` on the decimal forms `[±]digits[.digits][(e|E)[±]digits]`
(`inf`/`nan`/underscore separators, which cannot appear in a numeric DB cell,
are not modelled). -/
def pyFloatOfString (s0 : List Char) : Option ℚ :=
  let s := pyStrip s0
  let sgnRest : ℚ × List Char :=
    match s with
    | '+' :: r => (1, r)
    | '-' :: r => (-1, r)
    | r => (1, r)
  let sgn := sgnRest.1
  let p1 := spanDigits sgnRest.2
  let ds := p1.1
  let p2 : List Char × List Char :=
    match p1.2 with
    | '.' :: r => spanDigits r
    | r => ([], r)
  let fs := p2.1
  let s3 := if (match p1.2 with | '.' :: _ => true | _ => false) then p2.2 else p1.2
  if ds = [] ∧ fs = [] then none
  else
    let mant : ℚ := (digitsToNat ds : ℚ) + (digitsToNat fs : ℚ) / ((10 : ℚ) ^ fs.length)
    match s3 with
    | [] => some (sgn * mant)
    | 'e' :: r => pyFloatExp sgn mant r
    | 'E' :: r => pyFloatExp sgn mant r
    | _ => none
where
  /-- Exponent part of a float literal. -/
  pyFloatExp (sgn mant : ℚ) (r : List Char) : Option ℚ :=
    let esgnRest : Int × List Char :=
      match r with
      | '+' :: rr => (1, rr)
      | '-' :: rr => (-1, rr)
      | rr => (1, rr)
    let p := spanDigits esgnRest.2
    if p.1 = [] ∨ p.2 ≠ [] then none
    else some (sgn * mant * (10 : ℚ) ^ (esgnRest.1 * (digitsToNat p.1 : Int)))

/-- `float(r.get("pnl") or 0.0)` under `except (TypeError, ValueError): 0.0`
(db.py lines 683-686): an absent cell, a falsy cell and an unparseable text
cell all contribute exactly zero. -/
def pnl_value (cell : Option PnlCell) : ℚ :=
  match cell with
  | none => 0
  | some (.num q) => q
  | some (.text s) =>
    if s = "" then 0
    else match pyFloatOfString s.data with
      | some q => q
      | none => 0

structure CalendarDay where
  date : String
  pnl : ℚ
  trade_count : Nat
  deriving DecidableEq, Repr

/-- `datetime(year, month, 1, tzinfo=timezone.utc).isoformat()` — the
month-window bounds are compared as ISO strings (db.py lines 634-646). -/
def pad2 (n : Nat) : String := if n < 10 then "0" ++ toString n else "" ++ toString n

def pad4 (n : Nat) : String :=
  String.mk (List.replicate (4 - (toString n).length) '0') ++ toString n

def monthStartString (year month : Nat) : String :=
  pad4 year ++ "-" ++ pad2 month ++ "-01T00:00:00+00:00"

def monthEndString (year month : Nat) : String :=
  if month = 12 then monthStartString (year + 1) 1
  else monthStartString year (month + 1)

/-- The month-window select of `fetch_trade_calendar` (db.py lines 641-669):
owner scope, `taken_at ∈ [start, end)` and the shared filters. -/
def calRowsFor (store : List TradeRec) (user : String) (year month : Nat)
    (f : Filters) : List TradeRec :=
  store.filter (fun r =>
    r.user_id == user
    && (match r.taken_at with
      | some t => decide (monthStartString year month ≤ t) && decide (t < monthEndString year month)
      | none => false)
    && applyFilters f r)

/-- One pass of the aggregation loop body on the running bucket dict
(db.py lines 688-693): `setdefault` then `+=`. -/
def updateBucket : List CalendarDay → String → ℚ → List CalendarDay
  | [], day, v => [⟨day, 0 + v, 0 + 1⟩]
  | b :: bs, day, v =>
    if b.date = day then { b with pnl := b.pnl + v, trade_count := b.trade_count + 1 } :: bs
    else b :: updateBucket bs day v

/-- The aggregation loop body (db.py lines 675-693). -/
def calStep (buckets : List CalendarDay) (r : TradeRec) : List CalendarDay :=
  match r.taken_at with
  | none => buckets
  | some t =>
    if t = "" then buckets
    else updateBucket buckets (t.take 10) (pnl_value r.pnl)

/-- `fetch_trade_calendar` (db.py lines 616-697): filter, bucket by the first
ten characters of `taken_at` (the UTC date), sort by date. -/
def fetch_trade_calendar (store : List TradeRec) (user : String)
    (year month : Nat) (f : Filters) : List CalendarDay :=
  sortLe (fun a b => decide (a.date ≤ b.date))
    ((calRowsFor store user year month f).foldl calStep [])

/-! ## Claim C4 — calendar aggregation lemmas -/

/-- The bucket dict lookup: first bucket for the given date. -/
def bucketFor (bs : List CalendarDay) (d : String) : Option CalendarDay :=
  bs.find? (fun b => b.date == d)

/-- A row the aggregation loop attributes to UTC date `d`: a truthy
`taken_at` whose first ten characters are `d`. -/
def dayMatches (d : String) (r : TradeRec) : Bool :=
  match r.taken_at with
  | some t => (!(t == "")) && (t.take 10 == d)
  | none => false

/-- Summed contribution of a row list to date `d`. -/
def calSumFor (rows : List TradeRec) (d : String) : ℚ :=
  ((rows.filter (dayMatches d)).map (fun r => pnl_value r.pnl)).sum

/-- Number of rows attributed to date `d`. -/
def calCountFor (rows : List TradeRec) (d : String) : Nat :=
  (rows.filter (dayMatches d)).length

theorem bucketFor_updateBucket (bs : List CalendarDay) (day : String) (v : ℚ)
    (d : String) :
    bucketFor (updateBucket bs day v) d =
      if day = d then
        match bucketFor bs d with
        | some b => some { b with pnl := b.pnl + v, trade_count := b.trade_count + 1 }
        | none => some ⟨day, 0 + v, 0 + 1⟩
      else bucketFor bs d := by
  induction bs with
  | nil =>
    by_cases h : day = d
    · subst h; simp [updateBucket, bucketFor, List.find?]
    · have hf : (day == d) = false := by simp [h]
      simp [updateBucket, bucketFor, List.find?, h, hf]
  | cons b bs ih =>
    unfold updateBucket
    by_cases hbd : b.date = day
    · by_cases h : day = d
      · subst h
        simp [bucketFor, List.find?, hbd, if_pos hbd]
      · simp only [if_pos hbd, if_neg h]
        have hbne : (b.date == d) = false := by
          simp [hbd, h]
        simp [bucketFor, List.find?, hbne]
    · simp only [if_neg hbd]
      by_cases hbd2 : b.date = d
      · have hday : ¬ day = d := by
          intro h; exact hbd (hbd2.trans h.symm)
        simp [bucketFor, List.find?, hbd2, if_neg hday]
      · have hb2 : (b.date == d) = false := by simp [hbd2]
        have := ih
        by_cases h : day = d
        · simp only [if_pos h] at this ⊢
          simp [bucketFor, List.find?, hb2]
          simp [bucketFor] at this
          exact this
        · simp only [if_neg h] at this ⊢
          simp [bucketFor, List.find?, hb2]
          simp [bucketFor] at this
          exact this

theorem datesOf_updateBucket (bs : List CalendarDay) (day : String) (v : ℚ) :
    (updateBucket bs day v).map CalendarDay.date =
      if day ∈ bs.map CalendarDay.date then bs.map CalendarDay.date
      else bs.map CalendarDay.date ++ [day] := by
  induction bs with
  | nil => simp [updateBucket]
  | cons b bs ih =>
    unfold updateBucket
    by_cases hbd : b.date = day
    · simp [hbd]
    · have : ¬ day = b.date := fun h => hbd h.symm
      by_cases hmem : day ∈ bs.map CalendarDay.date
      · simp [hbd, hmem, this, ih]
      · simp [hbd, hmem, this, ih]

theorem nodup_updateBucket (bs : List CalendarDay) (day : String) (v : ℚ)
    (h : (bs.map CalendarDay.date).Nodup) :
    ((updateBucket bs day v).map CalendarDay.date).Nodup := by
  rw [datesOf_updateBucket]
  by_cases hmem : day ∈ bs.map CalendarDay.date
  · simpa [hmem] using h
  · simp only [if_neg hmem]
    refine List.Nodup.append h (List.nodup_singleton day) ?_
    intro a ha hb
    simp at hb
    subst hb
    exact hmem ha

theorem calSumFor_cons_pos (r : TradeRec) (rs : List TradeRec) (d : String)
    (h : dayMatches d r = true) :
    calSumFor (r :: rs) d = pnl_value r.pnl + calSumFor rs d := by
  simp [calSumFor, List.filter_cons, h]

theorem calSumFor_cons_neg (r : TradeRec) (rs : List TradeRec) (d : String)
    (h : dayMatches d r = false) :
    calSumFor (r :: rs) d = calSumFor rs d := by
  simp [calSumFor, List.filter_cons, h]

theorem calCountFor_cons_pos (r : TradeRec) (rs : List TradeRec) (d : String)
    (h : dayMatches d r = true) :
    calCountFor (r :: rs) d = calCountFor rs d + 1 := by
  simp [calCountFor, List.filter_cons, h]

theorem calCountFor_cons_neg (r : TradeRec) (rs : List TradeRec) (d : String)
    (h : dayMatches d r = false) :
    calCountFor (r :: rs) d = calCountFor rs d := by
  simp [calCountFor, List.filter_cons, h]

theorem calFold_bucketFor (rs : List TradeRec) :
    ∀ (acc : List CalendarDay) (d : String),
    bucketFor (rs.foldl calStep acc) d =
      match bucketFor acc d with
      | some b => some { b with pnl := b.pnl + calSumFor rs d, trade_count := b.trade_count + calCountFor rs d }
      | none => if calCountFor rs d = 0 then none
          else some ⟨d, calSumFor rs d, calCountFor rs d⟩ := by
  induction rs with
  | nil =>
    intro acc d
    cases hb : bucketFor acc d with
    | none => simp [calSumFor, calCountFor, hb]
    | some b => cases b; simp [calSumFor, calCountFor, hb]
  | cons r rs ih =>
    intro acc d
    rw [List.foldl_cons]
    rcases hta : r.taken_at with _ | t
    · have hdm : dayMatches d r = false := by simp [dayMatches, hta]
      have hcs : calStep acc r = acc := by simp [calStep, hta]
      rw [hcs, ih acc d, calSumFor_cons_neg r rs d hdm, calCountFor_cons_neg r rs d hdm]
    · by_cases hte : t = ""
      · have hdm : dayMatches d r = false := by simp [dayMatches, hta, hte]
        have hcs : calStep acc r = acc := by simp [calStep, hta, hte]
        rw [hcs, ih acc d, calSumFor_cons_neg r rs d hdm, calCountFor_cons_neg r rs d hdm]
      · have hcs : calStep acc r = updateBucket acc (t.take 10) (pnl_value r.pnl) := by
          simp [calStep, hta, hte]
        rw [hcs, ih _ d, bucketFor_updateBucket]
        by_cases hday : t.take 10 = d
        · have hdm : dayMatches d r = true := by
            simp [dayMatches, hta, hte, hday]
          rw [if_pos hday]
          rw [calSumFor_cons_pos r rs d hdm, calCountFor_cons_pos r rs d hdm]
          cases hb : bucketFor acc d with
          | none =>
            simp only [hb]
            have hne : ¬ (calCountFor rs d + 1 = 0) := by omega
            rw [if_neg hne, hday]
            simp only [Option.some.injEq, CalendarDay.mk.injEq]
            refine ⟨trivial, by ring, by omega⟩
          | some b =>
            simp only [hb]
            cases b
            simp only [Option.some.injEq, CalendarDay.mk.injEq]
            refine ⟨trivial, by ring, by omega⟩
        · have hdm : dayMatches d r = false := by
            simp [dayMatches, hta, hte, hday]
          rw [if_neg hday, calSumFor_cons_neg r rs d hdm, calCountFor_cons_neg r rs d hdm]

theorem calFold_nodup (rs : List TradeRec) :
    ∀ acc : List CalendarDay, ((acc.map CalendarDay.date).Nodup) →
    (((rs.foldl calStep acc).map CalendarDay.date).Nodup) := by
  induction rs with
  | nil => intro acc h; simpa using h
  | cons r rs ih =>
    intro acc h
    rw [List.foldl_cons]
    refine ih _ ?_
    unfold calStep
    rcases hta : r.taken_at with _ | t
    · exact h
    · by_cases hte : t = ""
      · simp [hte, h]
      · simp only [if_neg hte]
        exact nodup_updateBucket _ _ _ h

theorem mem_iff_bucketFor (bs : List CalendarDay)
    (hnd : (bs.map CalendarDay.date).Nodup) (b : CalendarDay) :
    b ∈ bs ↔ bucketFor bs b.date = some b := by
  induction bs with
  | nil => simp [bucketFor]
  | cons a bs ih =>
    simp only [List.map_cons, List.nodup_cons] at hnd
    obtain ⟨hna, hnd2⟩ := hnd
    constructor
    · intro hmem
      rcases List.mem_cons.mp hmem with rfl | hmem
      · simp [bucketFor, List.find?]
      · have hne : (a.date == b.date) = false := by
          have : b.date ∈ bs.map CalendarDay.date := List.mem_map_of_mem _ hmem
          have : a.date ≠ b.date := fun he => hna (he ▸ this)
          simp [this]
        simp only [bucketFor, List.find?, hne]
        exact (ih hnd2).mp hmem
    · intro hfind
      simp only [bucketFor, List.find?] at hfind
      cases hae : (a.date == b.date) with
      | true =>
        rw [hae] at hfind
        simp at hfind
        exact hfind ▸ List.mem_cons_self a bs
      | false =>
        rw [hae] at hfind
        exact List.mem_cons_of_mem a ((ih hnd2).mpr hfind)

/-- C4: `fetch_trade_calendar` returns one bucket per distinct UTC calendar
day (first ten characters of the trade's entry instant) that has at least one
matching trade in the month window, each bucket summing the matching trades'
realized pnl and counting them; absent and unparseable pnl cells contribute
exactly zero (without aborting the pass); a day with no matching trade gets no
bucket. -/
theorem c4_calendar_aggregation (store : List TradeRec) (user : String)
    (year month : Nat) (f : Filters) :
    ((fetch_trade_calendar store user year month f).map CalendarDay.date).Nodup
    ∧ (∀ d : String,
        (∃ b ∈ fetch_trade_calendar store user year month f, b.date = d) ↔
        (∃ r ∈ calRowsFor store user year month f, dayMatches d r = true))
    ∧ (∀ b ∈ fetch_trade_calendar store user year month f,
        b.pnl = calSumFor (calRowsFor store user year month f) b.date
        ∧ b.trade_count = calCountFor (calRowsFor store user year month f) b.date)
    ∧ pnl_value none = 0
    ∧ (∀ s : String, pyFloatOfString s.data = none →
        pnl_value (some (.text s)) = 0) := by
  set rows := calRowsFor store user year month f with hrows
  set agg := rows.foldl calStep [] with hagg
  have hperm : List.Perm (fetch_trade_calendar store user year month f) agg := by
    unfold fetch_trade_calendar
    exact sortLe_perm _ _
  have hnodupAgg : (agg.map CalendarDay.date).Nodup := calFold_nodup rows [] (by simp)
  have hbf : ∀ d, bucketFor agg d =
      (if calCountFor rows d = 0 then none
        else some ⟨d, calSumFor rows d, calCountFor rows d⟩) := by
    intro d
    rw [hagg, calFold_bucketFor rows [] d]
    rfl
  have hmemAgg : ∀ b, b ∈ fetch_trade_calendar store user year month f ↔ b ∈ agg :=
    fun b => hperm.mem_iff
  refine ⟨?_, ?_, ?_, rfl, ?_⟩
  · exact ((hperm.map CalendarDay.date).nodup_iff).mpr hnodupAgg
  · intro d
    constructor
    · rintro ⟨b, hb, rfl⟩
      have hb2 := (hmemAgg b).mp hb
      have := (mem_iff_bucketFor agg hnodupAgg b).mp hb2
      rw [hbf b.date] at this
      by_cases hc : calCountFor rows b.date = 0
      · rw [if_pos hc] at this; exact absurd this (by simp)
      · have : (rows.filter (dayMatches b.date)) ≠ [] := by
          intro hnil
          exact hc (by simp [calCountFor, hnil])
        rcases List.exists_mem_of_ne_nil _ this with ⟨r, hr⟩
        exact ⟨r, (List.mem_filter.mp hr).1, (List.mem_filter.mp hr).2⟩
    · rintro ⟨r, hr, hdm⟩
      have hc : calCountFor rows d ≠ 0 := by
        have : r ∈ rows.filter (dayMatches d) := List.mem_filter.mpr ⟨hr, hdm⟩
        have := List.length_pos.mpr (List.ne_nil_of_mem this)
        unfold calCountFor
        omega
      have hfind : bucketFor agg d = some ⟨d, calSumFor rows d, calCountFor rows d⟩ := by
        rw [hbf d, if_neg hc]
      have hmem : (⟨d, calSumFor rows d, calCountFor rows d⟩ : CalendarDay) ∈ agg :=
        List.mem_of_find?_eq_some hfind
      exact ⟨_, (hmemAgg _).mpr hmem, rfl⟩
  · intro b hb
    have hb2 := (hmemAgg b).mp hb
    have := (mem_iff_bucketFor agg hnodupAgg b).mp hb2
    rw [hbf b.date] at this
    by_cases hc : calCountFor rows b.date = 0
    · rw [if_pos hc] at this; exact absurd this (by simp)
    · rw [if_neg hc] at this
      have hinj := Option.some.inj this
      constructor
      · exact congrArg CalendarDay.pnl hinj.symm
      · exact congrArg CalendarDay.trade_count hinj.symm
  · intro s hs
    by_cases he : s = ""
    · simp [pnl_value, he]
    · simp [pnl_value, he, hs]

/-! ## CSV import (`import_trades_csv`, trades.py lines 237-349)

The loop's interactions with the backing store are abstracted into two
oracles: `dbDup` answers the store-level duplicate probe, and `insertFails i`
says whether the external insert of the i-th row raises.  Everything else —
the in-file dedupe key and `seen_keys` set, the timestamp parsing (which can
raise and fail the row), the per-row `try/except` — is embedded directly. -/

structure CsvImportRow where
  symbol : String
  side : String
  pnl : ℚ
  entry_time : Option String
  exit_time : Option String
  entry_price : Option ℚ
  exit_price : Option ℚ
  contracts : Option Int
  deriving DecidableEq, Repr

/-- `round(row.pnl, 2)` (trades.py line 260), represented as the exact count
of hundredths (banker's rounding, Python `round` semantics): with
`n/d = q*100` (unreduced) and `fl = ⌊q*100⌋`, the fractional part
`rem/d` is compared against one half.  Two pnl values have equal 2-decimal
roundings exactly when they have equal hundredth counts, so key equality is
unchanged by this representation. -/
def pyRound2Cents (q : ℚ) : Int :=
  let n := q.num * 100
  let d : Int := (q.den : Int)
  let fl := n.fdiv d
  let rem := n - fl * d
  if 2 * rem < d then fl
  else if d < 2 * rem then fl + 1
  else if fl % 2 = 0 then fl else fl + 1

def pyStripStr (s : String) : String := String.mk (pyStrip s.data)

/-- The intra-batch structural dedupe key (trades.py lines 257-266). -/
structure DedupeKey where
  symbol : String
  side : String
  pnl : Int
  entry_time : String
  exit_time : String
  entry_price : Option ℚ
  exit_price : Option ℚ
  contracts : Option Int
  deriving DecidableEq, Repr

def dedupe_key (r : CsvImportRow) : DedupeKey :=
  { symbol := pyUpper (pyStripStr r.symbol)
  , side := r.side
  , pnl := pyRound2Cents r.pnl
  , entry_time := r.entry_time.getD ""
  , exit_time := r.exit_time.getD ""
  , entry_price := r.entry_price
  , exit_price := r.exit_price
  , contracts := r.contracts }

/-- The probe `trade_exists_for_user` is called with (trades.py lines
292-302).  Modelled from the spec: `trade_exists_for_user` is imported from
`app/services/db.py` but its definition is not under `src/`; per spec §4.5(f)
it reports whether an existing trade of this owner matches on (symbol, side,
pnl, normalized entry instant, normalized exit instant, entry price, exit
price, contracts).  The store content is abstracted into the boolean oracle
`dbDup` over this probe. -/
structure DbProbe where
  symbol : String
  side : String
  pnl : ℚ
  taken_at : Int
  exit_at : Option Int
  entry_price : Option ℚ
  exit_price : Option ℚ
  contracts : Option Int
  deriving DecidableEq, Repr

def csvProbe (r : CsvImportRow) (taken_at : Int) (exit_at : Option Int) : DbProbe :=
  ⟨pyStripStr r.symbol, r.side, r.pnl, taken_at, exit_at,
    r.entry_price, r.exit_price, r.contracts⟩

inductive RowOutcome where
  | inserted
  | skippedInFile
  | skippedDb
  | failedRow
  deriving DecidableEq, Repr

/-- One iteration of the import loop (trades.py lines 254-347): in-file
dedupe, timestamp normalization (a `ValueError` fails the row), store-level
dedupe, insert; the outcome derivation from the pnl sign and the
caught-and-ignored session inference (lines 275-281, 317-323) cannot fail a
row and do not affect the outcome.  Returns the row's outcome and the
updated `seen_keys`. -/
def processCsvRow (dbDup : DbProbe → Bool) (insertFailsHere : Bool) (now : Int)
    (seen : List DedupeKey) (r : CsvImportRow) : RowOutcome × List DedupeKey :=
  let k := dedupe_key r
  if k ∈ seen then (.skippedInFile, seen)
  else
    let seen2 := k :: seen
    match _parse_csv_timestamp (r.entry_time.map String.data) with
    | .error _ => (.failedRow, seen2)
    | .ok te? =>
      match _parse_csv_timestamp (r.exit_time.map String.data) with
      | .error _ => (.failedRow, seen2)
      | .ok tx? =>
        let taken_at := te?.getD now
        if dbDup (csvProbe r taken_at tx?) then (.skippedDb, seen2)
        else if insertFailsHere then (.failedRow, seen2)
        else (.inserted, seen2)

def importCsvAux (dbDup : DbProbe → Bool) (insertFails : Nat → Bool) (now : Int) :
    List CsvImportRow → Nat → List DedupeKey → List RowOutcome
  | [], _, _ => []
  | r :: rest, i, seen =>
    let step := processCsvRow dbDup (insertFails i) now seen r
    step.1 :: importCsvAux dbDup insertFails now rest (i + 1) step.2

/-- The per-row outcomes of the batch, in order. -/
def csvRowOutcomes (dbDup : DbProbe → Bool) (insertFails : Nat → Bool)
    (now : Int) (rows : List CsvImportRow) : List RowOutcome :=
  importCsvAux dbDup insertFails now rows 0 []

structure CsvImportResult where
  insertedCount : Nat
  failedCount : Nat
  skippedCount : Nat
  deriving DecidableEq, Repr

/-- `import_trades_csv` (trades.py lines 237-349): the three counters over
the batch (`duplicates` counts both in-file and store-level skips). -/
def import_trades_csv (dbDup : DbProbe → Bool) (insertFails : Nat → Bool)
    (now : Int) (rows : List CsvImportRow) : CsvImportResult :=
  let os := csvRowOutcomes dbDup insertFails now rows
  { insertedCount := os.countP (fun o => decide (o = .inserted))
  , failedCount := os.countP (fun o => decide (o = .failedRow))
  , skippedCount := os.countP (fun o => decide (o = .skippedInFile) || decide (o = .skippedDb)) }

/-! ## Claims C5 and C7 — CSV import dedupe and batch isolation -/

theorem processCsvRow_snd (dbDup : DbProbe → Bool) (insertFailsHere : Bool)
    (now : Int) (seen : List DedupeKey) (r : CsvImportRow) :
    (processCsvRow dbDup insertFailsHere now seen r).2 =
      if dedupe_key r ∈ seen then seen else dedupe_key r :: seen := by
  unfold processCsvRow
  by_cases h : dedupe_key r ∈ seen
  · simp [h]
  · simp only [if_neg h]
    cases _parse_csv_timestamp (r.entry_time.map String.data) with
    | error e => rfl
    | ok te =>
      cases _parse_csv_timestamp (r.exit_time.map String.data) with
      | error e => rfl
      | ok tx =>
        dsimp only
        split
        · rfl
        · split <;> rfl

theorem processCsvRow_skip (dbDup : DbProbe → Bool) (insertFailsHere : Bool)
    (now : Int) (seen : List DedupeKey) (r : CsvImportRow)
    (h : dedupe_key r ∈ seen) :
    (processCsvRow dbDup insertFailsHere now seen r).1 = .skippedInFile := by
  unfold processCsvRow
  simp [h]

theorem importCsvAux_dup (dbDup : DbProbe → Bool) (insertFails : Nat → Bool)
    (now : Int) (rows : List CsvImportRow) :
    ∀ (i : Nat) (seen : List DedupeKey) (j : Nat) (r : CsvImportRow),
    rows[j]? = some r →
    (dedupe_key r ∈ seen ∨
      ∃ i2 r2, i2 < j ∧ rows[i2]? = some r2 ∧ dedupe_key r2 = dedupe_key r) →
    (importCsvAux dbDup insertFails now rows i seen)[j]? = some .skippedInFile := by
  induction rows with
  | nil => intro i seen j r hj; simp at hj
  | cons r0 rest ih =>
    intro i seen j r hj hdup
    cases j with
    | zero =>
      simp only [List.getElem?_cons_zero, Option.some.injEq] at hj
      have hin : dedupe_key r0 ∈ seen := by
        rcases hdup with h | ⟨i2, r2, hi2, _, _⟩
        · rw [hj]; exact h
        · omega
      unfold importCsvAux
      simp [processCsvRow_skip dbDup (insertFails i) now seen r0 hin]
    | succ j2 =>
      have hjr : rest[j2]? = some r := by simpa using hj
      unfold importCsvAux
      simp only [List.getElem?_cons_succ]
      refine ih (i + 1) ((processCsvRow dbDup (insertFails i) now seen r0).2) j2 r hjr ?_
      have hs2 := processCsvRow_snd dbDup (insertFails i) now seen r0
      rcases hdup with h | ⟨i2, r2, hi2, hr2, hk⟩
      · left
        rw [hs2]
        split
        · exact h
        · exact List.mem_cons_of_mem _ h
      · cases i2 with
        | zero =>
          left
          simp only [List.getElem?_cons_zero, Option.some.injEq] at hr2
          subst hr2
          rw [hs2]
          split
          · rename_i hmem; exact hk ▸ hmem
          · exact hk ▸ List.mem_cons_self _ _
        | succ i3 =>
          right
          exact ⟨i3, r2, by omega, by simpa using hr2, hk⟩

/-- The duplicated sample row of the spec's CSV-dedupe test property. -/
def csvSampleRow : CsvImportRow := ⟨"ES", "buy", 100, none, none, none, none, none⟩

/-- C5: a row whose structural dedupe key equals the key of any earlier row of
the same batch is skipped in-file; the returned counters count exactly the
per-row outcomes (an in-file skip lands in `skippedCount`, not
`insertedCount`); importing the same row twice in one batch over a store
without it yields `insertedCount = 1, skippedCount = 1`. -/
theorem c5_csv_intra_batch_dedupe
    (dbDup : DbProbe → Bool) (insertFails : Nat → Bool) (now : Int)
    (rows : List CsvImportRow) (i j : Nat) (ri rj : CsvImportRow)
    (hij : i < j) (hi : rows[i]? = some ri) (hj : rows[j]? = some rj)
    (hkey : dedupe_key ri = dedupe_key rj) :
    (csvRowOutcomes dbDup insertFails now rows)[j]? = some .skippedInFile
    ∧ import_trades_csv dbDup insertFails now rows =
      { insertedCount := (csvRowOutcomes dbDup insertFails now rows).countP
          (fun o => decide (o = .inserted))
      , failedCount := (csvRowOutcomes dbDup insertFails now rows).countP
          (fun o => decide (o = .failedRow))
      , skippedCount := (csvRowOutcomes dbDup insertFails now rows).countP
          (fun o => decide (o = .skippedInFile) || decide (o = .skippedDb)) }
    ∧ import_trades_csv (fun _ => false) (fun _ => false) now
        [csvSampleRow, csvSampleRow] = ⟨1, 0, 1⟩ := by
  refine ⟨?_, rfl, rfl⟩
  exact importCsvAux_dup dbDup insertFails now rows 0 [] j rj hj
    (Or.inr ⟨i, ri, hij, hi, hkey⟩)

/-- Witness for C5: the sample row imported twice in one batch. -/
theorem c5_csv_intra_batch_dedupe_witness :
    (0 : Nat) < 1
    ∧ [csvSampleRow, csvSampleRow][0]? = some csvSampleRow
    ∧ [csvSampleRow, csvSampleRow][1]? = some csvSampleRow
    ∧ dedupe_key csvSampleRow = dedupe_key csvSampleRow
    ∧ (csvRowOutcomes (fun _ => false) (fun _ => false) 0
        [csvSampleRow, csvSampleRow])[1]? = some .skippedInFile :=
  ⟨by decide, rfl, rfl, rfl,
    (c5_csv_intra_batch_dedupe (fun _ => false) (fun _ => false) 0
      [csvSampleRow, csvSampleRow] 0 1 csvSampleRow csvSampleRow
      (by decide) rfl rfl rfl).1⟩

theorem importCsvAux_length (dbDup : DbProbe → Bool) (insertFails : Nat → Bool)
    (now : Int) : ∀ (rows : List CsvImportRow) (i : Nat) (seen : List DedupeKey),
    (importCsvAux dbDup insertFails now rows i seen).length = rows.length := by
  intro rows
  induction rows with
  | nil => intro i seen; rfl
  | cons r rest ih =>
    intro i seen
    unfold importCsvAux
    simp [ih]

theorem rowOutcome_partition (os : List RowOutcome) :
    os.countP (fun o => decide (o = .inserted))
      + os.countP (fun o => decide (o = .failedRow))
      + os.countP (fun o => decide (o = .skippedInFile) || decide (o = .skippedDb))
      = os.length := by
  induction os with
  | nil => rfl
  | cons o os ih =>
    cases o <;> simp [List.countP_cons] <;> omega

/-- C7: per-row failures never abort a CSV batch — every row of the batch
receives exactly one outcome whatever the store oracles do (including an
insert that raises on any subset of rows), and the returned counters satisfy
`insertedCount + failedCount + skippedCount = number of rows`. -/
theorem c7_csv_batch_isolation (dbDup : DbProbe → Bool)
    (insertFails : Nat → Bool) (now : Int) (rows : List CsvImportRow) :
    ((import_trades_csv dbDup insertFails now rows).insertedCount
      + (import_trades_csv dbDup insertFails now rows).failedCount
      + (import_trades_csv dbDup insertFails now rows).skippedCount = rows.length)
    ∧ (csvRowOutcomes dbDup insertFails now rows).length = rows.length
    ∧ (∀ j, j < rows.length →
        ∃ o, (csvRowOutcomes dbDup insertFails now rows)[j]? = some o) := by
  have hlen : (csvRowOutcomes dbDup insertFails now rows).length = rows.length :=
    importCsvAux_length dbDup insertFails now rows 0 []
  refine ⟨?_, hlen, ?_⟩
  · have := rowOutcome_partition (csvRowOutcomes dbDup insertFails now rows)
    unfold import_trades_csv
    dsimp only
    rw [this, hlen]
  · intro j hj
    have : j < (csvRowOutcomes dbDup insertFails now rows).length := by omega
    exact ⟨_, List.getElem?_eq_getElem this⟩

/-! ## Cursor codec (`_encode_cursor` / `_decode_cursor`, trades.py lines 37-49)

`base64.urlsafe_b64encode(json.dumps(payload).encode()).decode()` and its
inverse are embedded layer by layer: bytes are `Nat` (< 256); the base64url
decoder is CPython's lenient `binascii.a2b_base64` state machine (non-strict
mode: bytes outside the alphabet are silently discarded, padding ends the
decode once a quad is complete, and only a trailing partial quad is an
error); UTF-8 is decoded with the usual overlong/surrogate/range checks; and
`json.dumps`/`json.loads` are embedded with `ensure_ascii` escaping and a
full recursive-descent reader whose strings are code-point sequences
(`List Nat`), so the lone surrogates and `NaN`/`Infinity` constants CPython's
`json.loads` accepts are accepted and represented exactly. -/

def b64Alphabet : List Char :=
  "ABCDEFGHIJKLMNOPQRSTUVWXYZabcdefghijklmnopqrstuvwxyz0123456789+/".data

def b64Char (n : Nat) : Char := b64Alphabet.getD n 'A'

def b64Val (c : Char) : Option Nat := b64Alphabet.findIdx? (fun x => x == c)

def b64encodeBytes : List Nat → List Char
  | [] => []
  | [a] => [b64Char (a / 4), b64Char (a % 4 * 16), '=', '=']
  | [a, b] => [b64Char (a / 4), b64Char (a % 4 * 16 + b / 16), b64Char (b % 16 * 4), '=']
  | a :: b :: c :: rest =>
    b64Char (a / 4) :: b64Char (a % 4 * 16 + b / 16) ::
    b64Char (b % 16 * 4 + c / 64) :: b64Char (c % 64) :: b64encodeBytes rest

/-- `urlsafe_b64encode`: standard alphabet, then `+/` translated to `-_`. -/
def urlsafeEncChar (c : Char) : Char :=
  if c = '+' then '-' else if c = '/' then '_' else c

def urlsafe_b64encode (bs : List Nat) : List Char :=
  (b64encodeBytes bs).map urlsafeEncChar

/-- `str.encode()`: UTF-8 bytes of a text. -/
def utf8EncodeChar (c : Char) : List Nat :=
  let n := c.toNat
  if n < 0x80 then [n]
  else if n < 0x800 then [0xC0 + n / 64, 0x80 + n % 64]
  else if n < 0x10000 then [0xE0 + n / 4096, 0x80 + n / 64 % 64, 0x80 + n % 64]
  else [0xF0 + n / 0x40000, 0x80 + n / 4096 % 64, 0x80 + n / 64 % 64, 0x80 + n % 64]

def utf8Encode (s : List Char) : List Nat := (s.map utf8EncodeChar).flatten

/-- A UTF-8 continuation byte. -/
def isContByte (b : Nat) : Bool := 0x80 ≤ b && b < 0xC0

/-- One UTF-8 scalar at the head of a byte stream: the code point and the
remaining bytes, with the usual overlong/surrogate/range rejection. -/
def utf8DecodeStep (b : Nat) (rest : List Nat) : Option (Nat × List Nat) :=
  if b < 0x80 then some (b, rest)
  else if b < 0xC0 then none
  else if b < 0xE0 then
    match rest with
    | b2 :: rest2 =>
      if isContByte b2 then
        let cp := (b - 0xC0) * 64 + (b2 - 0x80)
        if 0x80 ≤ cp then some (cp, rest2) else none
      else none
    | [] => none
  else if b < 0xF0 then
    match rest with
    | b2 :: b3 :: rest3 =>
      if isContByte b2 && isContByte b3 then
        let cp := (b - 0xE0) * 4096 + (b2 - 0x80) * 64 + (b3 - 0x80)
        if 0x800 ≤ cp ∧ ¬(0xD800 ≤ cp ∧ cp < 0xE000) then some (cp, rest3) else none
      else none
    | _ => none
  else if b < 0xF8 then
    match rest with
    | b2 :: b3 :: b4 :: rest4 =>
      if isContByte b2 && isContByte b3 && isContByte b4 then
        let cp := (b - 0xF0) * 0x40000 + (b2 - 0x80) * 4096 + (b3 - 0x80) * 64 + (b4 - 0x80)
        if 0x10000 ≤ cp ∧ cp < 0x110000 then some (cp, rest4) else none
      else none
    | _ => none
  else none

/-- Fuelled decoding loop; each step consumes at least one byte, so the fuel
`utf8Decode` passes never runs out. -/
def utf8DecodeAux : Nat → List Nat → Option (List Char)
  | 0, _ => none
  | Nat.succ _, [] => some []
  | Nat.succ fuel, b :: rest =>
    match utf8DecodeStep b rest with
    | none => none
    | some (cp, rest2) => (utf8DecodeAux fuel rest2).map (fun cs => Char.ofNat cp :: cs)

/-- `bytes.decode()`: strict UTF-8. -/
def utf8Decode (l : List Nat) : Option (List Char) := utf8DecodeAux (l.length + 1) l

/-- `binascii`'s base64 byte value table (`table_a2b_base64`): the sextet of
an alphabet byte, `none` for every other byte. -/
def b64ByteVal (b : Nat) : Option Nat :=
  if 65 ≤ b ∧ b ≤ 90 then some (b - 65)
  else if 97 ≤ b ∧ b ≤ 122 then some (b - 71)
  else if 48 ≤ b ∧ b ≤ 57 then some (b + 4)
  else if b = 43 then some 62
  else if b = 47 then some 63
  else none

/-- CPython `binascii.a2b_base64` with `strict_mode=False` (the mode
`base64.b64decode` uses):  the quad-position state machine of
`Modules/binascii.c`.  A `=` ends the decode successfully once at least two
sextets of the current quad are present and enough pads have accumulated;
bytes outside the alphabet are silently skipped; input ending in the middle
of a quad (one leftover data byte, or two/three without enough padding) is
an error. -/
def a2bAux : List Nat → Nat → Nat → Nat → List Nat → Option (List Nat)
  | [], quadPos, _, _, acc => if quadPos = 0 then some acc else none
  | b :: rest, quadPos, leftchar, pads, acc =>
    if b = 61 then
      if 2 ≤ quadPos then
        if 4 ≤ quadPos + (pads + 1) then some acc
        else a2bAux rest quadPos leftchar (pads + 1) acc
      else a2bAux rest quadPos leftchar pads acc
    else
      match b64ByteVal b with
      | none => a2bAux rest quadPos leftchar pads acc
      | some d =>
        match quadPos with
        | 0 => a2bAux rest 1 d 0 acc
        | 1 => a2bAux rest 2 (d % 16) 0 (acc ++ [leftchar * 4 + d / 16])
        | 2 => a2bAux rest 3 (d % 4) 0 (acc ++ [leftchar * 16 + d / 4])
        | _ => a2bAux rest 0 0 0 (acc ++ [leftchar * 64 + d])

def a2b_base64 (bs : List Nat) : Option (List Nat) := a2bAux bs 0 0 0 []

/-- The byte-level `-_` → `+/` translation `urlsafe_b64decode` applies before
decoding. -/
def urlsafeTrByte (b : Nat) : Nat := if b = 45 then 43 else if b = 95 then 47 else b

/-- `base64.urlsafe_b64decode(cursor.encode())`: UTF-8 encode the text,
translate `-_` to `+/`, then the lenient `a2b_base64`. -/
def urlsafe_b64decode (s : List Char) : Option (List Nat) :=
  a2b_base64 ((utf8Encode s).map urlsafeTrByte)

/-! ## JSON (`json.dumps` with `ensure_ascii`, `json.loads`) -/

def hexDigitChar (n : Nat) : Char := "0123456789abcdef".data.getD n '0'

def hex4 (n : Nat) : List Char :=
  [hexDigitChar (n / 4096 % 16), hexDigitChar (n / 256 % 16),
   hexDigitChar (n / 16 % 16), hexDigitChar (n % 16)]

def hexVal (c : Char) : Option Nat :=
  if c.isDigit then some (c.toNat - 48)
  else if 'a' ≤ c ∧ c ≤ 'f' then some (c.toNat - 87)
  else if 'A' ≤ c ∧ c ≤ 'F' then some (c.toNat - 55)
  else none

/-- One character of `json.dumps`'s default ASCII-only string escaping
(CPython `py_encode_basestring_ascii`): shorthand escapes, `\uXXXX` for other
characters outside `[0x20, 0x7F)`, surrogate pairs above `0xFFFF`. -/
def escChar (c : Char) : List Char :=
  if c = '"' then ['\\', '"']
  else if c = '\\' then ['\\', '\\']
  else if c = '\x08' then ['\\', 'b']
  else if c = '\t' then ['\\', 't']
  else if c = '\n' then ['\\', 'n']
  else if c = '\x0c' then ['\\', 'f']
  else if c = '\r' then ['\\', 'r']
  else if c.toNat < 0x20 ∨ 0x7F ≤ c.toNat then
    if c.toNat < 0x10000 then '\\' :: 'u' :: hex4 c.toNat
    else
      let v := c.toNat - 0x10000
      ('\\' :: 'u' :: hex4 (0xD800 + v / 0x400)) ++ ('\\' :: 'u' :: hex4 (0xDC00 + v % 0x400))
  else [c]

def escString (s : List Char) : List Char := (s.map escChar).flatten

/-- Structured JSON values; a number keeps its sign and digit strings (which
is all the cursor decoder's truthiness test needs), the `NaN`/`Infinity`
constants CPython's `json.loads` accepts are kept as constants, and strings
are code-point sequences (a Python `str` may hold lone surrogates, which a
Lean `Char` cannot). -/
inductive JVal where
  | jnull
  | jbool (b : Bool)
  | jnum (neg : Bool) (intDs fracDs : List Char) (exp : Int)
  | jnan
  | jinf (neg : Bool)
  | jstr (s : List Nat)
  | jarr (xs : List JVal)
  | jobj (fields : List (List Nat × JVal))

/-- The code points of an ASCII keyword (`"sort_at"`, `"id"`, …). -/
def jCodes (s : String) : List Nat := s.data.map Char.toNat

def skipJWs (s : List Char) : List Char :=
  s.dropWhile (fun c => c = ' ' || c = '\t' || c = '\n' || c = '\r')

/-- The single-character JSON escapes. -/
def escShorthand (e : Char) : Option Char :=
  if e = '"' then some '"'
  else if e = '\\' then some '\\'
  else if e = '/' then some '/'
  else if e = 'b' then some '\x08'
  else if e = 'f' then some '\x0c'
  else if e = 'n' then some '\n'
  else if e = 'r' then some '\r'
  else if e = 't' then some '\t'
  else none

/-- After a `\uXXXX` escape gave a high surrogate `hi` (CPython
`scanstring_unicode`): a directly following `\u` escape with four valid hex
digits in the low-surrogate range is joined with `hi`; four valid hex digits
outside that range leave `hi` as a lone surrogate and the second escape is
re-read normally; invalid hex after a following `\u` is an error; anything
else leaves `hi` as a lone surrogate. -/
def parseJLowSurrogate (hi : Nat) (s : List Char) : Option (Nat × List Char) :=
  match s with
  | e2 :: u2 :: g1 :: g2 :: g3 :: g4 :: rest4 =>
    if e2 = '\\' ∧ u2 = 'u' then
      match hexVal g1, hexVal g2, hexVal g3, hexVal g4 with
      | some x1, some x2, some x3, some x4 =>
        let lo := x1 * 4096 + x2 * 256 + x3 * 16 + x4
        if 0xDC00 ≤ lo ∧ lo < 0xE000 then
          some (0x10000 + (hi - 0xD800) * 0x400 + (lo - 0xDC00), rest4)
        else some (hi, s)
      | _, _, _, _ => none
    else some (hi, s)
  | _ => some (hi, s)

/-- `\uXXXX`: four hex digits; a high surrogate tries to join a following
low-surrogate escape, every other value (lone low surrogates included, as in
CPython) is kept as-is. -/
def parseJUEscape : List Char → Option (Nat × List Char)
  | h1 :: h2 :: h3 :: h4 :: rest3 =>
    match hexVal h1, hexVal h2, hexVal h3, hexVal h4 with
    | some d1, some d2, some d3, some d4 =>
      let cp := d1 * 4096 + d2 * 256 + d3 * 16 + d4
      if 0xD800 ≤ cp ∧ cp < 0xDC00 then parseJLowSurrogate cp rest3
      else some (cp, rest3)
    | _, _, _, _ => none
  | _ => none

/-- One escape sequence after a backslash inside a JSON string (CPython
`py_scanstring`): shorthand escapes or `\uXXXX`. -/
def parseJEscape : List Char → Option (Nat × List Char)
  | [] => none
  | e :: rest =>
    if e = 'u' then parseJUEscape rest
    else
      match escShorthand e with
      | some ch => some (ch.toNat, rest)
      | none => none

/-- JSON string body after the opening quote, fuelled (each step consumes at
least one character, so the fuel the callers pass never runs out):
unescaped control characters are rejected, escapes go through
`parseJEscape`. -/
def parseJStringBody : Nat → List Char → Option (List Nat × List Char)
  | 0, _ => none
  | Nat.succ fuel, s =>
    match s with
    | [] => none
    | c :: rest =>
      if c = '"' then some ([], rest)
      else if c = '\\' then
        match parseJEscape rest with
        | none => none
        | some (ch, rest2) => (parseJStringBody fuel rest2).map (fun p => (ch :: p.1, p.2))
      else if c.toNat < 0x20 then none
      else (parseJStringBody fuel rest).map (fun p => (c.toNat :: p.1, p.2))

/-- Exponent tail of a JSON number (`([eE][-+]?\d+)?`); an incomplete
exponent leaves the input at `orig`. -/
def jExpTail (r : List Char) (orig : List Char) : Int × List Char :=
  let sgnR : Int × List Char :=
    match r with
    | '+' :: rr => (1, rr)
    | '-' :: rr => (-1, rr)
    | rr => (1, rr)
  let p := spanDigits sgnR.2
  if p.1 = [] then (0, orig) else (sgnR.1 * (digitsToNat p.1 : Int), p.2)

/-- JSON number per the grammar `-?(0|[1-9]\d*)(\.\d+)?([eE][-+]?\d+)?`. -/
def parseJNumber (s0 : List Char) : Option (JVal × List Char) :=
  let negS : Bool × List Char :=
    match s0 with
    | '-' :: r => (true, r)
    | r => (false, r)
  let intP : Option (List Char × List Char) :=
    match negS.2 with
    | '0' :: r => some (['0'], r)
    | c :: r =>
      if c.isDigit then some ((c :: r).takeWhile Char.isDigit, (c :: r).dropWhile Char.isDigit)
      else none
    | [] => none
  match intP with
  | none => none
  | some (ds, s2) =>
    let fracP : List Char × List Char :=
      match s2 with
      | '.' :: r => if (spanDigits r).1 = [] then ([], s2) else spanDigits r
      | _ => ([], s2)
    let expP : Int × List Char :=
      match fracP.2 with
      | 'e' :: r => jExpTail r fracP.2
      | 'E' :: r => jExpTail r fracP.2
      | _ => (0, fracP.2)
    some (.jnum negS.1 ds fracP.1 expP.1, expP.2)

mutual

/-- One JSON value (CPython `scanner.py` / `decoder.py`), fuelled for the
mutual recursion; the fuel picked by `jsonLoads` never runs out. -/
def parseJValue : Nat → List Char → Option (JVal × List Char)
  | 0, _ => none
  | Nat.succ fuel, s0 =>
    match skipJWs s0 with
    | [] => none
    | c :: rest =>
      if c = '\x7b' then parseJObjectRest fuel rest
      else if c = '[' then parseJArrayRest fuel rest
      else if c = '"' then (parseJStringBody (rest.length + 1) rest).map (fun p => (.jstr p.1, p.2))
      else if c = 't' then
        match rest with
        | 'r' :: 'u' :: 'e' :: r => some (.jbool true, r)
        | _ => none
      else if c = 'f' then
        match rest with
        | 'a' :: 'l' :: 's' :: 'e' :: r => some (.jbool false, r)
        | _ => none
      else if c = 'n' then
        match rest with
        | 'u' :: 'l' :: 'l' :: r => some (.jnull, r)
        | _ => none
      else if c = 'N' then
        match rest with
        | 'a' :: 'N' :: r => some (.jnan, r)
        | _ => none
      else if c = 'I' then
        match rest with
        | 'n' :: 'f' :: 'i' :: 'n' :: 'i' :: 't' :: 'y' :: r => some (.jinf false, r)
        | _ => none
      else if c = '-' then
        match rest with
        | 'I' :: 'n' :: 'f' :: 'i' :: 'n' :: 'i' :: 't' :: 'y' :: r => some (.jinf true, r)
        | _ => parseJNumber (c :: rest)
      else if c.isDigit then parseJNumber (c :: rest)
      else none

/-- Object tail after `\x7b`. -/
def parseJObjectRest : Nat → List Char → Option (JVal × List Char)
  | 0, _ => none
  | Nat.succ fuel, s =>
    match skipJWs s with
    | '\x7d' :: rest => some (.jobj [], rest)
    | s2 => (parseJMembers fuel s2).map (fun p => (.jobj p.1, p.2))

/-- One-or-more `"key": value` members separated by commas. -/
def parseJMembers : Nat → List Char → Option (List (List Nat × JVal) × List Char)
  | 0, _ => none
  | Nat.succ fuel, s =>
    match s with
    | '"' :: rest =>
      match parseJStringBody (rest.length + 1) rest with
      | none => none
      | some (key, rest2) =>
        match skipJWs rest2 with
        | ':' :: rest3 =>
          match parseJValue fuel rest3 with
          | none => none
          | some (v, rest4) =>
            match skipJWs rest4 with
            | ',' :: rest5 =>
              (parseJMembers fuel (skipJWs rest5)).map (fun p => ((key, v) :: p.1, p.2))
            | '\x7d' :: rest5 => some ([(key, v)], rest5)
            | _ => none
        | _ => none
    | _ => none

/-- Array tail after `[`. -/
def parseJArrayRest : Nat → List Char → Option (JVal × List Char)
  | 0, _ => none
  | Nat.succ fuel, s =>
    match skipJWs s with
    | ']' :: rest => some (.jarr [], rest)
    | s2 => (parseJItems fuel s2).map (fun p => (.jarr p.1, p.2))

/-- One-or-more array items separated by commas. -/
def parseJItems : Nat → List Char → Option (List JVal × List Char)
  | 0, _ => none
  | Nat.succ fuel, s =>
    match parseJValue fuel s with
    | none => none
    | some (v, rest) =>
      match skipJWs rest with
      | ',' :: rest2 => (parseJItems fuel rest2).map (fun p => (v :: p.1, p.2))
      | ']' :: rest2 => some ([v], rest2)
      | _ => none

end

/-- `json.loads`: parse one top-level value, then only whitespace may remain.
Three fuel per input character is enough for every chain of the mutual
recursion, so the fuel never runs out on an input `jsonLoads` accepts. -/
def jsonLoads (s : List Char) : Option JVal :=
  match parseJValue (3 * s.length + 3) s with
  | some (v, rest) => if skipJWs rest = [] then some v else none
  | none => none

/-! ## The cursor codec itself -/

/-- `json.dumps({"sort_at": sort_at_iso, "id": trade_id})` with the default
separators: `\x7b"sort_at": "…", "id": "…"\x7d`. -/
def dumpsCursorPayload (s i : List Char) : List Char :=
  '\x7b' :: '"' :: ("sort_at".data ++ ('"' :: ':' :: ' ' :: '"' ::
    (escString s ++ ('"' :: ',' :: ' ' :: '"' :: ("id".data ++ ('"' :: ':' :: ' ' :: '"' ::
      (escString i ++ ['"', '\x7d'])))))))

/-- `_encode_cursor` (trades.py lines 37-39). -/
def _encode_cursor (sort_at_iso trade_id : List Char) : List Char :=
  urlsafe_b64encode (utf8Encode (dumpsCursorPayload sort_at_iso trade_id))

/-- Python dict lookup over the parsed member list (later duplicate keys win,
as in a dict built by `json.loads`). -/
def jsonGet (fs : List (List Nat × JVal)) (k : List Nat) : Option JVal :=
  fs.foldl (fun acc p => if p.1 = k then some p.2 else acc) none

/-- Python truthiness of `payload.get(k)`: `None`, `False`, zero, and empty
strings/lists/dicts are falsy. -/
def truthyJ : Option JVal → Bool
  | none => false
  | some .jnull => false
  | some (.jbool b) => b
  | some (.jnum _ ds fs _) => !(ds.all (fun c => c = '0') && fs.all (fun c => c = '0'))
  | some .jnan => true
  | some (.jinf _) => true
  | some (.jstr s) => !s.isEmpty
  | some (.jarr xs) => !xs.isEmpty
  | some (.jobj fs) => !fs.isEmpty

/-- `_decode_cursor` (trades.py lines 41-49): base64url decode, UTF-8 decode,
`json.loads`, then the truthiness check of both fields; every failure
(including `payload.get` on a non-dict) is caught and surfaced as the 400
`invalid_cursor` response, modelled as `none`. -/
def _decode_cursor (cursor : List Char) : Option JVal :=
  match urlsafe_b64decode cursor with
  | none => none
  | some bytes =>
    match utf8Decode bytes with
    | none => none
    | some raw =>
      match jsonLoads raw with
      | none => none
      | some payload =>
        match payload with
        | .jobj fs =>
          if truthyJ (jsonGet fs (jCodes "sort_at")) && truthyJ (jsonGet fs (jCodes "id")) then
            some payload
          else none
        | _ => none

/-! ## Claim C3 — codec lemmas: base64 -/

theorem b64_tblB : ∀ m : Fin 64,
    b64ByteVal ((b64Char m.val).toNat) = some m.val ∧
    ¬ (b64Char m.val).toNat = 61 ∧
    (urlsafeEncChar (b64Char m.val)).toNat < 0x80 ∧
    urlsafeTrByte ((urlsafeEncChar (b64Char m.val)).toNat) = (b64Char m.val).toNat := by
  decide

theorem map_congr_mem {α β : Type} (f g : α → β) :
    ∀ l : List α, (∀ x ∈ l, f x = g x) → l.map f = l.map g := by
  intro l
  induction l with
  | nil => intro _; rfl
  | cons a t ih =>
    intro h
    simp only [List.map_cons, h a (by simp)]
    rw [ih (fun x hx => h x (by simp [hx]))]

theorem b64encodeBytes_chars : ∀ (bs : List Nat), (∀ x ∈ bs, x < 256) → ∀ (c : Char),
    c ∈ b64encodeBytes bs → (∃ m : Fin 64, c = b64Char m.val) ∨ c = '=' := by
  intro bs
  induction bs using b64encodeBytes.induct with
  | case1 => intro _ c hc; simp [b64encodeBytes] at hc
  | case2 a =>
    intro hlt c hc
    have ha : a < 256 := hlt a (by simp)
    have ha1 : a / 4 < 64 := by omega
    have ha2 : a % 4 * 16 < 64 := by omega
    unfold b64encodeBytes at hc
    simp only [List.mem_cons, List.not_mem_nil, or_false] at hc
    rcases hc with rfl | rfl | rfl | rfl
    · exact Or.inl ⟨⟨a / 4, ha1⟩, rfl⟩
    · exact Or.inl ⟨⟨a % 4 * 16, ha2⟩, rfl⟩
    · exact Or.inr rfl
    · exact Or.inr rfl
  | case3 a b =>
    intro hlt c hc
    have ha : a < 256 := hlt a (by simp)
    have hb : b < 256 := hlt b (by simp)
    have ha1 : a / 4 < 64 := by omega
    have ha2 : a % 4 * 16 + b / 16 < 64 := by omega
    have ha3 : b % 16 * 4 < 64 := by omega
    unfold b64encodeBytes at hc
    simp only [List.mem_cons, List.not_mem_nil, or_false] at hc
    rcases hc with rfl | rfl | rfl | rfl
    · exact Or.inl ⟨⟨a / 4, ha1⟩, rfl⟩
    · exact Or.inl ⟨⟨a % 4 * 16 + b / 16, ha2⟩, rfl⟩
    · exact Or.inl ⟨⟨b % 16 * 4, ha3⟩, rfl⟩
    · exact Or.inr rfl
  | case4 a b c2 rest ih =>
    intro hlt c hc
    have ha : a < 256 := hlt a (by simp)
    have hb : b < 256 := hlt b (by simp)
    have hc2 : c2 < 256 := hlt c2 (by simp)
    have hrest : ∀ x ∈ rest, x < 256 := fun x hx => hlt x (by simp [hx])
    have ha1 : a / 4 < 64 := by omega
    have ha2 : a % 4 * 16 + b / 16 < 64 := by omega
    have ha3 : b % 16 * 4 + c2 / 64 < 64 := by omega
    have ha4 : c2 % 64 < 64 := by omega
    unfold b64encodeBytes at hc
    simp only [List.mem_cons] at hc
    rcases hc with rfl | rfl | rfl | rfl | hc
    · exact Or.inl ⟨⟨a / 4, ha1⟩, rfl⟩
    · exact Or.inl ⟨⟨a % 4 * 16 + b / 16, ha2⟩, rfl⟩
    · exact Or.inl ⟨⟨b % 16 * 4 + c2 / 64, ha3⟩, rfl⟩
    · exact Or.inl ⟨⟨c2 % 64, ha4⟩, rfl⟩
    · exact ih hrest c hc

theorem map_self_of_mem {α : Type} (f : α → α) :
    ∀ l : List α, (∀ x ∈ l, f x = x) → l.map f = l := by
  intro l
  induction l with
  | nil => intro _; rfl
  | cons a t ih =>
    intro h
    simp only [List.map_cons, h a (by simp)]
    rw [ih (fun x hx => h x (by simp [hx]))]

theorem a2b_step0 {b : Nat} (rest : List Nat) (left pads : Nat) (acc : List Nat)
    {d : Nat} (hb : b64ByteVal b = some d) (hne : ¬ b = 61) :
    a2bAux (b :: rest) 0 left pads acc = a2bAux rest 1 d 0 acc := by
  conv_lhs => unfold a2bAux
  rw [if_neg hne, hb]

theorem a2b_step1 {b : Nat} (rest : List Nat) (left pads : Nat) (acc : List Nat)
    {d : Nat} (hb : b64ByteVal b = some d) (hne : ¬ b = 61) :
    a2bAux (b :: rest) 1 left pads acc =
      a2bAux rest 2 (d % 16) 0 (acc ++ [left * 4 + d / 16]) := by
  conv_lhs => unfold a2bAux
  rw [if_neg hne, hb]

theorem a2b_step2 {b : Nat} (rest : List Nat) (left pads : Nat) (acc : List Nat)
    {d : Nat} (hb : b64ByteVal b = some d) (hne : ¬ b = 61) :
    a2bAux (b :: rest) 2 left pads acc =
      a2bAux rest 3 (d % 4) 0 (acc ++ [left * 16 + d / 4]) := by
  conv_lhs => unfold a2bAux
  rw [if_neg hne, hb]

theorem a2b_step3 {b : Nat} (rest : List Nat) (left pads : Nat) (acc : List Nat)
    {d : Nat} (hb : b64ByteVal b = some d) (hne : ¬ b = 61) :
    a2bAux (b :: rest) 3 left pads acc = a2bAux rest 0 0 0 (acc ++ [left * 64 + d]) := by
  conv_lhs => unfold a2bAux
  rw [if_neg hne, hb]

theorem a2b_pad2_first (rest : List Nat) (left : Nat) (acc : List Nat) :
    a2bAux (61 :: rest) 2 left 0 acc = a2bAux rest 2 left 1 acc := by
  conv_lhs => unfold a2bAux
  rw [if_pos rfl, if_pos (by omega : 2 ≤ 2), if_neg (by omega : ¬ 4 ≤ 2 + (0 + 1))]

theorem a2b_pad2_second (rest : List Nat) (left : Nat) (acc : List Nat) :
    a2bAux (61 :: rest) 2 left 1 acc = some acc := by
  conv_lhs => unfold a2bAux
  rw [if_pos rfl, if_pos (by omega : 2 ≤ 2), if_pos (by omega : 4 ≤ 2 + (1 + 1))]

theorem a2b_pad3 (rest : List Nat) (left : Nat) (acc : List Nat) :
    a2bAux (61 :: rest) 3 left 0 acc = some acc := by
  conv_lhs => unfold a2bAux
  rw [if_pos rfl, if_pos (by omega : 2 ≤ 3), if_pos (by omega : 4 ≤ 3 + (0 + 1))]

/-! ## Claim C3 — codec lemmas: UTF-8 -/

theorem char_toNat_valid (c : Char) :
    c.toNat < 0xD800 ∨ (0xDFFF < c.toNat ∧ c.toNat < 0x110000) := by
  rcases c.valid with h | ⟨h1, h2⟩
  · left
    exact h
  · right
    exact ⟨h1, h2⟩

theorem char_toNat_lt (c : Char) : c.toNat < 0x110000 := by
  rcases char_toNat_valid c with h | ⟨_, h⟩ <;> omega

theorem char_toNat_not_surrogate (c : Char) :
    ¬(0xD800 ≤ c.toNat ∧ c.toNat < 0xE000) := by
  rcases char_toNat_valid c with h | ⟨h1, _⟩ <;> omega

theorem utf8EncodeChar_lt256 (c : Char) : ∀ b ∈ utf8EncodeChar c, b < 256 := by
  intro b hb
  have hv := char_toNat_lt c
  unfold utf8EncodeChar at hb
  dsimp only at hb
  split at hb
  · simp at hb; omega
  · split at hb
    · simp at hb
      rcases hb with rfl | rfl <;> omega
    · split at hb
      · simp at hb
        rcases hb with rfl | rfl | rfl <;> omega
      · simp at hb
        rcases hb with rfl | rfl | rfl | rfl <;> omega

theorem utf8Encode_lt256 (s : List Char) : ∀ b ∈ utf8Encode s, b < 256 := by
  intro b hb
  unfold utf8Encode at hb
  rcases List.mem_flatten.mp hb with ⟨l, hl, hbl⟩
  rcases List.mem_map.mp hl with ⟨c, _, rfl⟩
  exact utf8EncodeChar_lt256 c b hbl

theorem utf8Encode_ascii (s : List Char) (h : ∀ c ∈ s, c.toNat < 0x80) :
    utf8Encode s = s.map Char.toNat := by
  induction s with
  | nil => rfl
  | cons c cs ih =>
    have hc : c.toNat < 0x80 := h c (by simp)
    have henc : utf8EncodeChar c = [c.toNat] := by
      unfold utf8EncodeChar
      rw [if_pos hc]
    unfold utf8Encode at ih ⊢
    simp only [List.map_cons, List.flatten_cons, henc]
    rw [ih (fun x hx => h x (by simp [hx]))]
    rfl

theorem utf8DecodeStep_ascii (b : Nat) (rest : List Nat) (hb : b < 0x80) :
    utf8DecodeStep b rest = some (b, rest) := by
  unfold utf8DecodeStep
  rw [if_pos hb]

theorem utf8DecodeAux_map_toNat (s : List Char) :
    ∀ fuel : Nat, s.length + 1 ≤ fuel → (∀ c ∈ s, c.toNat < 0x80) →
    utf8DecodeAux fuel (s.map Char.toNat) = some s := by
  induction s with
  | nil =>
    intro fuel hfuel _
    match fuel, hfuel with
    | Nat.succ f, _ => rfl
  | cons c cs ih =>
    intro fuel hfuel h
    have hc : c.toNat < 0x80 := h c (List.mem_cons_self c cs)
    match fuel, hfuel with
    | Nat.succ f, hfuel =>
      have hf : cs.length + 1 ≤ f := by
        simp only [List.length_cons] at hfuel
        omega
      show (match utf8DecodeStep c.toNat (cs.map Char.toNat) with
        | none => none
        | some (cp, rest2) => (utf8DecodeAux f rest2).map (fun l => Char.ofNat cp :: l)) =
        some (c :: cs)
      rw [utf8DecodeStep_ascii _ _ hc]
      show (utf8DecodeAux f (cs.map Char.toNat)).map (fun l => Char.ofNat c.toNat :: l) =
        some (c :: cs)
      rw [ih f hf (fun x hx => h x (List.mem_cons_of_mem c hx))]
      show some (Char.ofNat c.toNat :: cs) = some (c :: cs)
      rw [Char.ofNat_toNat]

theorem utf8Decode_map_toNat (s : List Char) (h : ∀ c ∈ s, c.toNat < 0x80) :
    utf8Decode (s.map Char.toNat) = some s := by
  unfold utf8Decode
  refine utf8DecodeAux_map_toNat s _ ?_ h
  simp

theorem utf8_ascii_roundtrip (s : List Char) (h : ∀ c ∈ s, c.toNat < 0x80) :
    utf8Decode (utf8Encode s) = some s := by
  rw [utf8Encode_ascii s h]
  exact utf8Decode_map_toNat s h

theorem a2b_encode : ∀ (bs : List Nat), (∀ b ∈ bs, b < 256) → ∀ acc : List Nat,
    a2bAux ((b64encodeBytes bs).map Char.toNat) 0 0 0 acc = some (acc ++ bs) := by
  intro bs
  induction bs using b64encodeBytes.induct with
  | case1 =>
    intro _ acc
    simp [b64encodeBytes, a2bAux]
  | case2 a =>
    intro h acc
    have ha : a < 256 := h a (by simp)
    have h1 : a / 4 < 64 := by omega
    have h2 : a % 4 * 16 < 64 := by omega
    have t1 := b64_tblB ⟨a / 4, h1⟩
    have t2 := b64_tblB ⟨a % 4 * 16, h2⟩
    show a2bAux ((b64Char (a / 4)).toNat :: (b64Char (a % 4 * 16)).toNat ::
      ('=' : Char).toNat :: ('=' : Char).toNat :: []) 0 0 0 acc = some (acc ++ [a])
    rw [show (('=' : Char).toNat) = 61 from rfl]
    rw [a2b_step0 _ _ _ _ t1.1 t1.2.1]
    rw [a2b_step1 _ _ _ _ t2.1 t2.2.1]
    rw [a2b_pad2_first, a2b_pad2_second]
    rw [show a / 4 * 4 + (a % 4 * 16) / 16 = a by omega]
  | case3 a b =>
    intro h acc
    have ha : a < 256 := h a (by simp)
    have hb : b < 256 := h b (by simp)
    have h1 : a / 4 < 64 := by omega
    have h2 : a % 4 * 16 + b / 16 < 64 := by omega
    have h3 : b % 16 * 4 < 64 := by omega
    have t1 := b64_tblB ⟨a / 4, h1⟩
    have t2 := b64_tblB ⟨a % 4 * 16 + b / 16, h2⟩
    have t3 := b64_tblB ⟨b % 16 * 4, h3⟩
    show a2bAux ((b64Char (a / 4)).toNat :: (b64Char (a % 4 * 16 + b / 16)).toNat ::
      (b64Char (b % 16 * 4)).toNat :: ('=' : Char).toNat :: []) 0 0 0 acc =
      some (acc ++ [a, b])
    rw [show (('=' : Char).toNat) = 61 from rfl]
    rw [a2b_step0 _ _ _ _ t1.1 t1.2.1]
    rw [a2b_step1 _ _ _ _ t2.1 t2.2.1]
    rw [a2b_step2 _ _ _ _ t3.1 t3.2.1]
    rw [a2b_pad3]
    rw [show a / 4 * 4 + (a % 4 * 16 + b / 16) / 16 = a by omega]
    rw [show (a % 4 * 16 + b / 16) % 16 * 16 + (b % 16 * 4) / 4 = b by omega]
    rw [List.append_assoc]
    rfl
  | case4 a b c rest ih =>
    intro h acc
    have ha : a < 256 := h a (by simp)
    have hb : b < 256 := h b (by simp)
    have hc : c < 256 := h c (by simp)
    have hrest : ∀ x ∈ rest, x < 256 := fun x hx => h x (by simp [hx])
    have h1 : a / 4 < 64 := by omega
    have h2 : a % 4 * 16 + b / 16 < 64 := by omega
    have h3 : b % 16 * 4 + c / 64 < 64 := by omega
    have h4 : c % 64 < 64 := by omega
    have t1 := b64_tblB ⟨a / 4, h1⟩
    have t2 := b64_tblB ⟨a % 4 * 16 + b / 16, h2⟩
    have t3 := b64_tblB ⟨b % 16 * 4 + c / 64, h3⟩
    have t4 := b64_tblB ⟨c % 64, h4⟩
    show a2bAux ((b64Char (a / 4)).toNat :: (b64Char (a % 4 * 16 + b / 16)).toNat ::
      (b64Char (b % 16 * 4 + c / 64)).toNat :: (b64Char (c % 64)).toNat ::
      (b64encodeBytes rest).map Char.toNat) 0 0 0 acc = some (acc ++ a :: b :: c :: rest)
    rw [a2b_step0 _ _ _ _ t1.1 t1.2.1]
    rw [a2b_step1 _ _ _ _ t2.1 t2.2.1]
    rw [a2b_step2 _ _ _ _ t3.1 t3.2.1]
    rw [a2b_step3 _ _ _ _ t4.1 t4.2.1]
    rw [show a / 4 * 4 + (a % 4 * 16 + b / 16) / 16 = a by omega]
    rw [show (a % 4 * 16 + b / 16) % 16 * 16 + (b % 16 * 4 + c / 64) / 4 = b by omega]
    rw [show (b % 16 * 4 + c / 64) % 4 * 64 + c % 64 = c by omega]
    rw [ih hrest]
    simp

theorem urlsafe_b64_roundtrip (bs : List Nat) (h : ∀ b ∈ bs, b < 256) :
    urlsafe_b64decode (urlsafe_b64encode bs) = some bs := by
  unfold urlsafe_b64decode urlsafe_b64encode a2b_base64
  have hmem : ∀ ch ∈ (b64encodeBytes bs).map urlsafeEncChar, ch.toNat < 0x80 := by
    intro ch hch
    rcases List.mem_map.mp hch with ⟨c0, hc0, rfl⟩
    rcases b64encodeBytes_chars bs h c0 hc0 with ⟨m, rfl⟩ | rfl
    · exact (b64_tblB m).2.2.1
    · decide
  rw [utf8Encode_ascii _ hmem]
  rw [List.map_map, List.map_map]
  have hmap := map_congr_mem ((urlsafeTrByte ∘ Char.toNat) ∘ urlsafeEncChar) Char.toNat
    (b64encodeBytes bs) (by
      intro c0 hc0
      rcases b64encodeBytes_chars bs h c0 hc0 with ⟨m, rfl⟩ | rfl
      · exact (b64_tblB m).2.2.2
      · decide)
  rw [hmap]
  simpa using a2b_encode bs h []

/-! ## Claim C3 — codec lemmas: JSON string escaping round trip -/

theorem hexVal_hexDigitChar : ∀ m : Fin 16, hexVal (hexDigitChar m.val) = some m.val := by
  decide

theorem hexVal_hexDigitChar_of_lt {n : Nat} (h : n < 16) :
    hexVal (hexDigitChar n) = some n :=
  hexVal_hexDigitChar ⟨n, h⟩

theorem escString_cons (c : Char) (cs : List Char) :
    escString (c :: cs) = escChar c ++ escString cs := by
  simp [escString]

theorem parseJStringBody_succ_quote (fuel : Nat) (l : List Char) :
    parseJStringBody (Nat.succ fuel) ('"' :: l) = some ([], l) := rfl

theorem parseJStringBody_succ_backslash (fuel : Nat) (l : List Char) :
    parseJStringBody (Nat.succ fuel) ('\\' :: l) =
      match parseJEscape l with
      | none => none
      | some (ch, rest2) => (parseJStringBody fuel rest2).map (fun p => (ch :: p.1, p.2)) := rfl

theorem parseJStringBody_succ_plain (fuel : Nat) (c : Char) (l : List Char)
    (h1 : ¬ c = '"') (h2 : ¬ c = '\\') (h3 : ¬ c.toNat < 0x20) :
    parseJStringBody (Nat.succ fuel) (c :: l) =
      (parseJStringBody fuel l).map (fun p => (c.toNat :: p.1, p.2)) := by
  show (if c = '"' then some ([], l)
    else if c = '\\' then
      match parseJEscape l with
      | none => none
      | some (ch, rest2) => (parseJStringBody fuel rest2).map (fun p => (ch :: p.1, p.2))
    else if c.toNat < 0x20 then none
    else (parseJStringBody fuel l).map (fun p => (c.toNat :: p.1, p.2))) =
    (parseJStringBody fuel l).map (fun p => (c.toNat :: p.1, p.2))
  rw [if_neg h1, if_neg h2, if_neg h3]

theorem parseJUEscape_plain (n : Nat) (tail : List Char)
    (hlt : n < 0x10000) (hns : ¬(0xD800 ≤ n ∧ n < 0xDC00)) :
    parseJUEscape (hex4 n ++ tail) = some (n, tail) := by
  have e1 : hexVal (hexDigitChar (n / 4096 % 16)) = some (n / 4096 % 16) :=
    hexVal_hexDigitChar_of_lt (by omega)
  have e2 : hexVal (hexDigitChar (n / 256 % 16)) = some (n / 256 % 16) :=
    hexVal_hexDigitChar_of_lt (by omega)
  have e3 : hexVal (hexDigitChar (n / 16 % 16)) = some (n / 16 % 16) :=
    hexVal_hexDigitChar_of_lt (by omega)
  have e4 : hexVal (hexDigitChar (n % 16)) = some (n % 16) :=
    hexVal_hexDigitChar_of_lt (by omega)
  have hcp : n / 4096 % 16 * 4096 + n / 256 % 16 * 256 + n / 16 % 16 * 16 + n % 16 = n := by
    omega
  show parseJUEscape (hexDigitChar (n / 4096 % 16) :: hexDigitChar (n / 256 % 16) ::
    hexDigitChar (n / 16 % 16) :: hexDigitChar (n % 16) :: tail) = some (n, tail)
  unfold parseJUEscape
  dsimp only
  rw [e1, e2, e3, e4]
  simp only []
  rw [hcp]
  rw [if_neg hns]

theorem parseJLowSurrogate_hex4 (hi lo : Nat) (tail : List Char)
    (hlo : 0xDC00 ≤ lo ∧ lo < 0xE000) :
    parseJLowSurrogate hi ('\\' :: 'u' :: (hex4 lo ++ tail)) =
      some (0x10000 + (hi - 0xD800) * 0x400 + (lo - 0xDC00), tail) := by
  have f1 : hexVal (hexDigitChar (lo / 4096 % 16)) = some (lo / 4096 % 16) :=
    hexVal_hexDigitChar_of_lt (by omega)
  have f2 : hexVal (hexDigitChar (lo / 256 % 16)) = some (lo / 256 % 16) :=
    hexVal_hexDigitChar_of_lt (by omega)
  have f3 : hexVal (hexDigitChar (lo / 16 % 16)) = some (lo / 16 % 16) :=
    hexVal_hexDigitChar_of_lt (by omega)
  have f4 : hexVal (hexDigitChar (lo % 16)) = some (lo % 16) :=
    hexVal_hexDigitChar_of_lt (by omega)
  have hcp : lo / 4096 % 16 * 4096 + lo / 256 % 16 * 256 + lo / 16 % 16 * 16 + lo % 16 = lo := by
    omega
  show parseJLowSurrogate hi ('\\' :: 'u' :: (hexDigitChar (lo / 4096 % 16) ::
    hexDigitChar (lo / 256 % 16) :: hexDigitChar (lo / 16 % 16) :: hexDigitChar (lo % 16) ::
    tail)) = some (0x10000 + (hi - 0xD800) * 0x400 + (lo - 0xDC00), tail)
  unfold parseJLowSurrogate
  dsimp only
  rw [if_pos (⟨rfl, rfl⟩ : ('\\' : Char) = '\\' ∧ ('u' : Char) = 'u')]
  rw [f1, f2, f3, f4]
  simp only []
  rw [hcp]
  rw [if_pos hlo]

theorem parseJEscape_u (rest : List Char) :
    parseJEscape ('u' :: rest) = parseJUEscape rest := rfl

theorem parseJEscape_u_plain (n : Nat) (tail : List Char)
    (hlt : n < 0x10000) (hns : ¬(0xD800 ≤ n ∧ n < 0xDC00)) :
    parseJEscape ('u' :: (hex4 n ++ tail)) = some (n, tail) := by
  rw [parseJEscape_u]
  exact parseJUEscape_plain n tail hlt hns

theorem parseJUEscape_hi (hi : Nat) (rest : List Char)
    (hin : 0xD800 ≤ hi ∧ hi < 0xDC00) :
    parseJUEscape (hex4 hi ++ rest) = parseJLowSurrogate hi rest := by
  have e1 : hexVal (hexDigitChar (hi / 4096 % 16)) = some (hi / 4096 % 16) :=
    hexVal_hexDigitChar_of_lt (by omega)
  have e2 : hexVal (hexDigitChar (hi / 256 % 16)) = some (hi / 256 % 16) :=
    hexVal_hexDigitChar_of_lt (by omega)
  have e3 : hexVal (hexDigitChar (hi / 16 % 16)) = some (hi / 16 % 16) :=
    hexVal_hexDigitChar_of_lt (by omega)
  have e4 : hexVal (hexDigitChar (hi % 16)) = some (hi % 16) :=
    hexVal_hexDigitChar_of_lt (by omega)
  have hcp : hi / 4096 % 16 * 4096 + hi / 256 % 16 * 256 + hi / 16 % 16 * 16 + hi % 16 = hi := by
    omega
  show parseJUEscape (hexDigitChar (hi / 4096 % 16) :: hexDigitChar (hi / 256 % 16) ::
    hexDigitChar (hi / 16 % 16) :: hexDigitChar (hi % 16) :: rest) = parseJLowSurrogate hi rest
  unfold parseJUEscape
  dsimp only
  rw [e1, e2, e3, e4]
  simp only []
  rw [hcp]
  rw [if_pos hin]

theorem parseJEscape_u_pair (n : Nat) (tail : List Char)
    (hge : 0x10000 ≤ n) (hlt : n < 0x110000) :
    parseJEscape ('u' :: (hex4 (0xD800 + (n - 0x10000) / 0x400) ++
      ('\\' :: 'u' :: (hex4 (0xDC00 + (n - 0x10000) % 0x400) ++ tail)))) =
      some (n, tail) := by
  have hdiv : (n - 0x10000) / 0x400 < 0x400 := by omega
  rw [parseJEscape_u]
  rw [parseJUEscape_hi (0xD800 + (n - 0x10000) / 0x400) _ (by omega)]
  rw [parseJLowSurrogate_hex4 _ _ tail (by omega)]
  have hn : 0x10000 + (0xD800 + (n - 0x10000) / 0x400 - 0xD800) * 0x400 +
      (0xDC00 + (n - 0x10000) % 0x400 - 0xDC00) = n := by omega
  rw [hn]

theorem parseJStringBody_escString (s : List Char) :
    ∀ (fuel : Nat) (rest : List Char), s.length + 1 ≤ fuel →
    parseJStringBody fuel (escString s ++ '"' :: rest) =
      some (s.map Char.toNat, rest) := by
  induction s with
  | nil =>
    intro fuel rest hfuel
    match fuel, hfuel with
    | Nat.succ f, _ =>
      show parseJStringBody (Nat.succ f) ('"' :: rest) = some ([], rest)
      exact parseJStringBody_succ_quote f rest
  | cons c cs ih =>
    intro fuel rest hfuel
    match fuel, hfuel with
    | Nat.succ f, hfuel =>
      have hf : cs.length + 1 ≤ f := by
        simp only [List.length_cons] at hfuel
        omega
      have ih2 := ih f rest hf
      rw [escString_cons, List.append_assoc]
      have hval := char_toNat_valid c
      by_cases h1 : c = '"'
      · subst h1
        have he : escChar '"' = ['\\', '"'] := rfl
        rw [he]
        show parseJStringBody (Nat.succ f) ('\\' :: ('"' :: (escString cs ++ '"' :: rest))) = _
        rw [parseJStringBody_succ_backslash]
        have hesc : parseJEscape ('"' :: (escString cs ++ '"' :: rest)) =
            some (('"' : Char).toNat, escString cs ++ '"' :: rest) := rfl
        rw [hesc]; dsimp only; rw [ih2]; rfl
      · by_cases h2 : c = '\\'
        · subst h2
          have he : escChar '\\' = ['\\', '\\'] := rfl
          rw [he]
          show parseJStringBody (Nat.succ f) ('\\' :: ('\\' :: (escString cs ++ '"' :: rest))) = _
          rw [parseJStringBody_succ_backslash]
          have hesc : parseJEscape ('\\' :: (escString cs ++ '"' :: rest)) =
              some (('\\' : Char).toNat, escString cs ++ '"' :: rest) := rfl
          rw [hesc]; dsimp only; rw [ih2]; rfl
        · by_cases h3 : c = '\x08'
          · subst h3
            have he : escChar '\x08' = ['\\', 'b'] := rfl
            rw [he]
            show parseJStringBody (Nat.succ f) ('\\' :: ('b' :: (escString cs ++ '"' :: rest))) = _
            rw [parseJStringBody_succ_backslash]
            have hesc : parseJEscape ('b' :: (escString cs ++ '"' :: rest)) =
                some (('\x08' : Char).toNat, escString cs ++ '"' :: rest) := rfl
            rw [hesc]; dsimp only; rw [ih2]; rfl
          · by_cases h4 : c = '\t'
            · subst h4
              have he : escChar '\t' = ['\\', 't'] := rfl
              rw [he]
              show parseJStringBody (Nat.succ f) ('\\' :: ('t' :: (escString cs ++ '"' :: rest))) = _
              rw [parseJStringBody_succ_backslash]
              have hesc : parseJEscape ('t' :: (escString cs ++ '"' :: rest)) =
                  some (('\t' : Char).toNat, escString cs ++ '"' :: rest) := rfl
              rw [hesc]; dsimp only; rw [ih2]; rfl
            · by_cases h5 : c = '\n'
              · subst h5
                have he : escChar '\n' = ['\\', 'n'] := rfl
                rw [he]
                show parseJStringBody (Nat.succ f) ('\\' :: ('n' :: (escString cs ++ '"' :: rest))) = _
                rw [parseJStringBody_succ_backslash]
                have hesc : parseJEscape ('n' :: (escString cs ++ '"' :: rest)) =
                    some (('\n' : Char).toNat, escString cs ++ '"' :: rest) := rfl
                rw [hesc]; dsimp only; rw [ih2]; rfl
              · by_cases h6 : c = '\x0c'
                · subst h6
                  have he : escChar '\x0c' = ['\\', 'f'] := rfl
                  rw [he]
                  show parseJStringBody (Nat.succ f) ('\\' :: ('f' :: (escString cs ++ '"' :: rest))) = _
                  rw [parseJStringBody_succ_backslash]
                  have hesc : parseJEscape ('f' :: (escString cs ++ '"' :: rest)) =
                      some (('\x0c' : Char).toNat, escString cs ++ '"' :: rest) := rfl
                  rw [hesc]; dsimp only; rw [ih2]; rfl
                · by_cases h7 : c = '\r'
                  · subst h7
                    have he : escChar '\r' = ['\\', 'r'] := rfl
                    rw [he]
                    show parseJStringBody (Nat.succ f) ('\\' :: ('r' :: (escString cs ++ '"' :: rest))) = _
                    rw [parseJStringBody_succ_backslash]
                    have hesc : parseJEscape ('r' :: (escString cs ++ '"' :: rest)) =
                        some (('\r' : Char).toNat, escString cs ++ '"' :: rest) := rfl
                    rw [hesc]; dsimp only; rw [ih2]; rfl
                  · by_cases h8 : c.toNat < 0x20 ∨ 0x7F ≤ c.toNat
                    · have he : escChar c =
                          if c.toNat < 0x10000 then '\\' :: 'u' :: hex4 c.toNat
                          else ('\\' :: 'u' :: hex4 (0xD800 + (c.toNat - 0x10000) / 0x400)) ++
                            ('\\' :: 'u' :: hex4 (0xDC00 + (c.toNat - 0x10000) % 0x400)) := by
                        unfold escChar
                        rw [if_neg h1, if_neg h2, if_neg h3, if_neg h4, if_neg h5, if_neg h6,
                          if_neg h7, if_pos h8]
                      by_cases h9 : c.toNat < 0x10000
                      · rw [he, if_pos h9]
                        show parseJStringBody (Nat.succ f)
                          ('\\' :: ('u' :: (hex4 c.toNat ++ (escString cs ++ '"' :: rest)))) = _
                        rw [parseJStringBody_succ_backslash]
                        rw [parseJEscape_u_plain c.toNat _ h9 (by
                          have := char_toNat_not_surrogate c
                          omega)]
                        dsimp only
                        rw [ih2]
                        rfl
                      · rw [he, if_neg h9]
                        have hlt : c.toNat < 0x110000 := char_toNat_lt c
                        show parseJStringBody (Nat.succ f)
                          ('\\' :: ('u' :: (hex4 (0xD800 + (c.toNat - 0x10000) / 0x400) ++
                            ('\\' :: 'u' :: (hex4 (0xDC00 + (c.toNat - 0x10000) % 0x400) ++
                              (escString cs ++ '"' :: rest)))))) = _
                        rw [parseJStringBody_succ_backslash]
                        rw [parseJEscape_u_pair c.toNat _ (by omega) hlt]
                        dsimp only
                        rw [ih2]
                        rfl
                    · have he : escChar c = [c] := by
                        unfold escChar
                        rw [if_neg h1, if_neg h2, if_neg h3, if_neg h4, if_neg h5, if_neg h6,
                          if_neg h7, if_neg h8]
                      rw [he]
                      show parseJStringBody (Nat.succ f) (c :: (escString cs ++ '"' :: rest)) = _
                      rw [parseJStringBody_succ_plain f c _ h1 h2 (by omega), ih2]; rfl

theorem escChar_length_pos (c : Char) : 1 ≤ (escChar c).length := by
  unfold escChar
  split_ifs <;> simp [hex4]

theorem escString_length_ge (s : List Char) : s.length ≤ (escString s).length := by
  induction s with
  | nil => simp [escString]
  | cons c cs ih =>
    rw [escString_cons]
    simp only [List.length_append, List.length_cons]
    have := escChar_length_pos c
    omega

theorem parseJStringBody_atLen (s rest : List Char) :
    parseJStringBody ((escString s ++ '"' :: rest).length + 1) (escString s ++ '"' :: rest) =
      some (s.map Char.toNat, rest) := by
  refine parseJStringBody_escString s _ rest ?_
  have := escString_length_ge s
  simp only [List.length_append, List.length_cons]
  omega

/-- The parsed cursor payload. -/
def cursorPayloadJ (s i : List Char) : JVal :=
  .jobj [(jCodes "sort_at", .jstr (s.map Char.toNat)),
         (jCodes "id", .jstr (i.map Char.toNat))]

theorem parseJValue_str (fuel : Nat) (s rest : List Char) :
    parseJValue (Nat.succ fuel) (' ' :: '"' :: (escString s ++ ('"' :: rest))) =
      some (.jstr (s.map Char.toNat), rest) := by
  have hb := parseJStringBody_atLen s rest
  show (parseJStringBody ((escString s ++ '"' :: rest).length + 1)
      (escString s ++ '"' :: rest)).map (fun p => (JVal.jstr p.1, p.2)) =
    some (.jstr (s.map Char.toNat), rest)
  rw [hb]
  rfl

theorem parseJMembers_unfold (fuel : Nat) (rest : List Char) :
    parseJMembers (Nat.succ fuel) ('"' :: rest) =
      (match parseJStringBody (rest.length + 1) rest with
      | none => none
      | some (key, rest2) =>
        match skipJWs rest2 with
        | ':' :: rest3 =>
          match parseJValue fuel rest3 with
          | none => none
          | some (v, rest4) =>
            match skipJWs rest4 with
            | ',' :: rest5 =>
              (parseJMembers fuel (skipJWs rest5)).map (fun p => ((key, v) :: p.1, p.2))
            | '\x7d' :: rest5 => some ([(key, v)], rest5)
            | _ => none
        | _ => none) := rfl

theorem parseJMembers_id (g : Nat) (i : List Char) :
    parseJMembers (g + 2) ('"' :: ("id".data ++ ('"' :: ':' :: ' ' :: '"' ::
      (escString i ++ ['"', '\x7d'])))) =
      some ([("id".data.map Char.toNat, JVal.jstr (i.map Char.toNat))], []) := by
  show parseJMembers (Nat.succ (g + 1)) ('"' :: ("id".data ++ ('"' :: ':' :: ' ' :: '"' ::
    (escString i ++ ['"', '\x7d']))))
    = some ([("id".data.map Char.toNat, JVal.jstr (i.map Char.toNat))], [])
  rw [parseJMembers_unfold (g + 1)]
  rw [show parseJStringBody ((("id".data : List Char) ++ ('"' :: ':' :: ' ' :: '"' ::
      (escString i ++ ['"', '\x7d']))).length + 1)
      (("id".data : List Char) ++ ('"' :: ':' :: ' ' :: '"' :: (escString i ++ ['"', '\x7d']))) =
      some ("id".data.map Char.toNat, ':' :: ' ' :: '"' :: (escString i ++ ['"', '\x7d']))
    from parseJStringBody_atLen "id".data (':' :: ' ' :: '"' :: (escString i ++ ['"', '\x7d']))]
  show (match parseJValue (g + 1) (' ' :: '"' :: (escString i ++ ('"' :: ['\x7d']))) with
    | none => none
    | some (v, rest4) =>
      match skipJWs rest4 with
      | ',' :: rest5 =>
        (parseJMembers (g + 1) (skipJWs rest5)).map
          (fun p => ((("id".data.map Char.toNat, v)) :: p.1, p.2))
      | '\x7d' :: rest5 => some ([("id".data.map Char.toNat, v)], rest5)
      | _ => none) = some ([("id".data.map Char.toNat, JVal.jstr (i.map Char.toNat))], [])
  rw [show parseJValue (g + 1) (' ' :: '"' :: (escString i ++ ('"' :: ['\x7d']))) =
      some (.jstr (i.map Char.toNat), ['\x7d'])
    from parseJValue_str g i ['\x7d']]
  rfl

theorem parseJMembers_cursor (g : Nat) (s i : List Char) :
    parseJMembers (g + 3) ('"' :: ("sort_at".data ++ ('"' :: ':' :: ' ' :: '"' ::
      (escString s ++ ('"' :: ',' :: ' ' :: '"' :: ("id".data ++ ('"' :: ':' :: ' ' :: '"' ::
        (escString i ++ ['"', '\x7d'])))))))) =
      some ([("sort_at".data.map Char.toNat, JVal.jstr (s.map Char.toNat)),
             ("id".data.map Char.toNat, JVal.jstr (i.map Char.toNat))], []) := by
  show parseJMembers (Nat.succ (g + 2)) ('"' :: ("sort_at".data ++ ('"' :: ':' :: ' ' :: '"' ::
    (escString s ++ ('"' :: ',' :: ' ' :: '"' :: ("id".data ++ ('"' :: ':' :: ' ' :: '"' ::
      (escString i ++ ['"', '\x7d']))))))))
    = some ([("sort_at".data.map Char.toNat, JVal.jstr (s.map Char.toNat)),
             ("id".data.map Char.toNat, JVal.jstr (i.map Char.toNat))], [])
  rw [parseJMembers_unfold (g + 2)]
  rw [show parseJStringBody ((("sort_at".data : List Char) ++ ('"' :: ':' :: ' ' :: '"' ::
      (escString s ++ ('"' :: ',' :: ' ' :: '"' :: ("id".data ++ ('"' :: ':' :: ' ' :: '"' ::
        (escString i ++ ['"', '\x7d']))))))).length + 1)
      (("sort_at".data : List Char) ++ ('"' :: ':' :: ' ' :: '"' ::
      (escString s ++ ('"' :: ',' :: ' ' :: '"' :: ("id".data ++ ('"' :: ':' :: ' ' :: '"' ::
        (escString i ++ ['"', '\x7d']))))))) =
      some ("sort_at".data.map Char.toNat, ':' :: ' ' :: '"' ::
      (escString s ++ ('"' :: ',' :: ' ' :: '"' :: ("id".data ++ ('"' :: ':' :: ' ' :: '"' ::
        (escString i ++ ['"', '\x7d']))))))
    from parseJStringBody_atLen "sort_at".data (':' :: ' ' :: '"' ::
      (escString s ++ ('"' :: ',' :: ' ' :: '"' :: ("id".data ++ ('"' :: ':' :: ' ' :: '"' ::
        (escString i ++ ['"', '\x7d']))))))]
  show (match parseJValue (g + 2) (' ' :: '"' :: (escString s ++ ('"' :: (',' :: ' ' :: '"' ::
      ("id".data ++ ('"' :: ':' :: ' ' :: '"' :: (escString i ++ ['"', '\x7d']))))))) with
    | none => none
    | some (v, rest4) =>
      match skipJWs rest4 with
      | ',' :: rest5 =>
        (parseJMembers (g + 2) (skipJWs rest5)).map
          (fun p => ((("sort_at".data.map Char.toNat, v)) :: p.1, p.2))
      | '\x7d' :: rest5 => some ([("sort_at".data.map Char.toNat, v)], rest5)
      | _ => none) =
    some ([("sort_at".data.map Char.toNat, JVal.jstr (s.map Char.toNat)),
           ("id".data.map Char.toNat, JVal.jstr (i.map Char.toNat))], [])
  rw [show parseJValue (g + 2) (' ' :: '"' :: (escString s ++ ('"' :: (',' :: ' ' :: '"' ::
      ("id".data ++ ('"' :: ':' :: ' ' :: '"' :: (escString i ++ ['"', '\x7d']))))))) =
      some (.jstr (s.map Char.toNat), ',' :: ' ' :: '"' ::
        ("id".data ++ ('"' :: ':' :: ' ' :: '"' :: (escString i ++ ['"', '\x7d']))))
    from parseJValue_str (g + 1) s (',' :: ' ' :: '"' ::
      ("id".data ++ ('"' :: ':' :: ' ' :: '"' :: (escString i ++ ['"', '\x7d']))))]
  show (parseJMembers (g + 2) ('"' :: ("id".data ++ ('"' :: ':' :: ' ' :: '"' ::
      (escString i ++ ['"', '\x7d']))))).map
      (fun p => ((("sort_at".data.map Char.toNat, JVal.jstr (s.map Char.toNat))) :: p.1, p.2)) =
    some ([("sort_at".data.map Char.toNat, JVal.jstr (s.map Char.toNat)),
           ("id".data.map Char.toNat, JVal.jstr (i.map Char.toNat))], [])
  rw [parseJMembers_id g i]
  rfl

theorem parseJValue_cursor (k : Nat) (s i : List Char) :
    parseJValue (k + 5) (dumpsCursorPayload s i) = some (cursorPayloadJ s i, []) := by
  show (parseJMembers (k + 3) ('"' :: ("sort_at".data ++ ('"' :: ':' :: ' ' :: '"' ::
    (escString s ++ ('"' :: ',' :: ' ' :: '"' :: ("id".data ++ ('"' :: ':' :: ' ' :: '"' ::
      (escString i ++ ['"', '\x7d']))))))))).map (fun p => (JVal.jobj p.1, p.2)) =
    some (cursorPayloadJ s i, [])
  rw [parseJMembers_cursor k s i]
  rfl

theorem jsonLoads_cursor (s i : List Char) :
    jsonLoads (dumpsCursorPayload s i) = some (cursorPayloadJ s i) := by
  unfold jsonLoads
  have h1 : 1 ≤ (dumpsCursorPayload s i).length := by
    unfold dumpsCursorPayload
    simp
  rw [show 3 * (dumpsCursorPayload s i).length + 3 =
      (3 * (dumpsCursorPayload s i).length - 2) + 5 by omega]
  rw [parseJValue_cursor]
  rfl

set_option maxRecDepth 4096 in
theorem escChar_ascii (c : Char) : ∀ x ∈ escChar c, x.toNat < 0x80 := by
  have hhex : ∀ n : Nat, (hexDigitChar n).toNat < 0x80 := by
    intro n
    by_cases h : n < 16
    · have key : ∀ m : Fin 16, (hexDigitChar m.val).toNat < 0x80 := by decide
      exact key ⟨n, h⟩
    · have hdef : hexDigitChar n = '0' := by
        unfold hexDigitChar
        apply List.getD_eq_default
        have : ("0123456789abcdef".data).length = 16 := by decide
        omega
      rw [hdef]
      decide
  have hhex4 : ∀ n : Nat, ∀ x ∈ ('\\' :: 'u' :: hex4 n), x.toNat < 0x80 := by
    intro n x hx
    rcases List.mem_cons.mp hx with rfl | hx
    · decide
    rcases List.mem_cons.mp hx with rfl | hx
    · decide
    unfold hex4 at hx
    rcases List.mem_cons.mp hx with rfl | hx
    · exact hhex _
    rcases List.mem_cons.mp hx with rfl | hx
    · exact hhex _
    rcases List.mem_cons.mp hx with rfl | hx
    · exact hhex _
    rcases List.mem_cons.mp hx with rfl | hx
    · exact hhex _
    exact absurd hx (List.not_mem_nil x)
  intro x hx
  unfold escChar at hx
  split_ifs at hx with e1 e2 e3 e4 e5 e6 e7 e8 e9
  · simp at hx; rcases hx with rfl | rfl <;> decide
  · simp at hx; rcases hx with rfl | rfl <;> decide
  · simp at hx; rcases hx with rfl | rfl <;> decide
  · simp at hx; rcases hx with rfl | rfl <;> decide
  · simp at hx; rcases hx with rfl | rfl <;> decide
  · simp at hx; rcases hx with rfl | rfl <;> decide
  · simp at hx; rcases hx with rfl | rfl <;> decide
  · exact hhex4 _ x hx
  · rcases List.mem_append.mp hx with h | h
    · exact hhex4 _ x h
    · exact hhex4 _ x h
  · simp at hx
    subst hx
    omega

theorem escString_ascii (s : List Char) : ∀ x ∈ escString s, x.toNat < 0x80 := by
  intro x hx
  rcases (by simpa [escString] using hx : ∃ a, a ∈ s ∧ x ∈ escChar a) with ⟨c2, _, hxl⟩
  exact escChar_ascii c2 x hxl

theorem dumpsCursorPayload_ascii (s i : List Char) :
    ∀ c ∈ dumpsCursorPayload s i, c.toNat < 0x80 := by
  have hfix1 : ∀ c ∈ ("sort_at".data : List Char), c.toNat < 0x80 := by decide
  have hfix2 : ∀ c ∈ ("id".data : List Char), c.toNat < 0x80 := by decide
  intro c hc
  unfold dumpsCursorPayload at hc
  rcases List.mem_cons.mp hc with rfl | hc
  · decide
  rcases List.mem_cons.mp hc with rfl | hc
  · decide
  rcases List.mem_append.mp hc with hc | hc
  · exact hfix1 c hc
  rcases List.mem_cons.mp hc with rfl | hc
  · decide
  rcases List.mem_cons.mp hc with rfl | hc
  · decide
  rcases List.mem_cons.mp hc with rfl | hc
  · decide
  rcases List.mem_cons.mp hc with rfl | hc
  · decide
  rcases List.mem_append.mp hc with hc | hc
  · exact escString_ascii s c hc
  rcases List.mem_cons.mp hc with rfl | hc
  · decide
  rcases List.mem_cons.mp hc with rfl | hc
  · decide
  rcases List.mem_cons.mp hc with rfl | hc
  · decide
  rcases List.mem_cons.mp hc with rfl | hc
  · decide
  rcases List.mem_append.mp hc with hc | hc
  · exact hfix2 c hc
  rcases List.mem_cons.mp hc with rfl | hc
  · decide
  rcases List.mem_cons.mp hc with rfl | hc
  · decide
  rcases List.mem_cons.mp hc with rfl | hc
  · decide
  rcases List.mem_cons.mp hc with rfl | hc
  · decide
  rcases List.mem_append.mp hc with hc | hc
  · exact escString_ascii i c hc
  rcases List.mem_cons.mp hc with rfl | hc
  · decide
  rcases List.mem_cons.mp hc with rfl | hc
  · decide
  exact absurd hc (List.not_mem_nil c)

/-! ## Claim C3 — the cursor codec round trip and failure propagation -/


theorem jsonGet_cursor (x y : JVal) :
    jsonGet [(jCodes "sort_at", x), (jCodes "id", y)] (jCodes "sort_at") = some x ∧
    jsonGet [(jCodes "sort_at", x), (jCodes "id", y)] (jCodes "id") = some y := by
  constructor
  · show (if jCodes "id" = jCodes "sort_at" then some y
        else if jCodes "sort_at" = jCodes "sort_at" then some x else none) = some x
    rw [if_neg (by decide), if_pos rfl]
  · show (if jCodes "id" = jCodes "id" then some y
        else if jCodes "sort_at" = jCodes "id" then some x else none) = some y
    rw [if_pos rfl]

theorem decode_encode_cursor (s i : List Char) (hs : s ≠ []) (hi : i ≠ []) :
    _decode_cursor (_encode_cursor s i) = some (cursorPayloadJ s i) := by
  unfold _encode_cursor _decode_cursor
  rw [urlsafe_b64_roundtrip _ (utf8Encode_lt256 _)]
  dsimp only
  rw [utf8_ascii_roundtrip _ (dumpsCursorPayload_ascii s i)]
  dsimp only
  rw [jsonLoads_cursor]
  dsimp only
  show (if truthyJ (jsonGet [(jCodes "sort_at", .jstr (s.map Char.toNat)),
          (jCodes "id", .jstr (i.map Char.toNat))] (jCodes "sort_at"))
        && truthyJ (jsonGet [(jCodes "sort_at", .jstr (s.map Char.toNat)),
          (jCodes "id", .jstr (i.map Char.toNat))] (jCodes "id"))
      then some (cursorPayloadJ s i) else none) = some (cursorPayloadJ s i)
  rw [(jsonGet_cursor (.jstr (s.map Char.toNat)) (.jstr (i.map Char.toNat))).1,
    (jsonGet_cursor (.jstr (s.map Char.toNat)) (.jstr (i.map Char.toNat))).2]
  have hs' : (s.map Char.toNat).isEmpty = false := by
    cases s with
    | nil => exact absurd rfl hs
    | cons a t => rfl
  have hi' : (i.map Char.toNat).isEmpty = false := by
    cases i with
    | nil => exact absurd rfl hi
    | cons a t => rfl
  show (if (!(s.map Char.toNat).isEmpty) && (!(i.map Char.toNat).isEmpty)
      then some (cursorPayloadJ s i) else none) = _
  rw [hs', hi']
  rfl

/-- Counterexample to the original claim that every token that is not valid
base64url, or whose payload is not valid structured JSON, is rejected:
CPython's `base64.urlsafe_b64decode` silently discards bytes outside the
alphabet, so the valid cursor for `("a", "b")` with a `!` inserted still
decodes and is accepted; and CPython's `json.loads` accepts the `NaN`
constant, which is truthy, so a payload `\x7b"sort_at": NaN, "id": "b"\x7d`
is accepted as well (both verified against CPython 3.11). -/
theorem c3_lenient_decoder_accepts :
    _decode_cursor "eyJzb!3J0X2F0IjogImEiLCAiaWQiOiAiYiJ9".data =
      some (cursorPayloadJ "a".data "b".data) ∧
    _decode_cursor "eyJzb3J0X2F0IjogTmFOLCAiaWQiOiAiYiJ9".data =
      some (.jobj [(jCodes "sort_at", .jnan), (jCodes "id", .jstr (jCodes "b"))]) :=
  ⟨rfl, rfl⟩

/-- **C3** (amended) — Cursor codec round trip and rejection as implemented:
decoding the token produced by `_encode_cursor` on any pair of non-empty
strings returns exactly the two-field payload for that pair; and every
failure of the decode pipeline — a token the lenient base64 decoder rejects
(a trailing partial quad after non-alphabet bytes were discarded), decoded
bytes that are not valid UTF-8, text that `json.loads` rejects, a payload
that is not a JSON object, or an object payload missing its `sort_at` or
`id` field — makes `_decode_cursor` fail (the 400 `invalid_cursor` response,
modelled as `none`).  Tokens with junk characters outside the base64
alphabet, and payloads carrying `NaN`/`Infinity` or lone-surrogate escapes,
are NOT rejected (see `c3_lenient_decoder_accepts`). -/
theorem c3_cursor_roundtrip_and_rejection :
    (∀ s i : List Char, s ≠ [] → i ≠ [] →
        _decode_cursor (_encode_cursor s i) = some (cursorPayloadJ s i)) ∧
    (∀ tok : List Char, urlsafe_b64decode tok = none → _decode_cursor tok = none) ∧
    (∀ tok bytes, urlsafe_b64decode tok = some bytes → utf8Decode bytes = none →
        _decode_cursor tok = none) ∧
    (∀ tok bytes raw, urlsafe_b64decode tok = some bytes →
        utf8Decode bytes = some raw → jsonLoads raw = none →
        _decode_cursor tok = none) ∧
    (∀ tok bytes raw v, urlsafe_b64decode tok = some bytes →
        utf8Decode bytes = some raw → jsonLoads raw = some v →
        (∀ fs, v ≠ .jobj fs) → _decode_cursor tok = none) ∧
    (∀ tok bytes raw fs, urlsafe_b64decode tok = some bytes →
        utf8Decode bytes = some raw → jsonLoads raw = some (.jobj fs) →
        (jsonGet fs (jCodes "sort_at") = none ∨ jsonGet fs (jCodes "id") = none) →
        _decode_cursor tok = none) := by
  refine ⟨decode_encode_cursor, ?_, ?_, ?_, ?_, ?_⟩
  · intro tok h
    unfold _decode_cursor
    rw [h]
  · intro tok bytes h1 h2
    unfold _decode_cursor
    rw [h1]
    dsimp only
    rw [h2]
  · intro tok bytes raw h1 h2 h3
    unfold _decode_cursor
    rw [h1]
    dsimp only
    rw [h2]
    dsimp only
    rw [h3]
  · intro tok bytes raw v h1 h2 h3 hv
    unfold _decode_cursor
    rw [h1]
    dsimp only
    rw [h2]
    dsimp only
    rw [h3]
    dsimp only
    cases v with
    | jobj fs => exact absurd rfl (hv fs)
    | jnull => rfl
    | jbool b => rfl
    | jnum n ds fs e => rfl
    | jnan => rfl
    | jinf b => rfl
    | jstr s => rfl
    | jarr xs => rfl
  · intro tok bytes raw fs h1 h2 h3 h4
    unfold _decode_cursor
    rw [h1]
    dsimp only
    rw [h2]
    dsimp only
    rw [h3]
    dsimp only
    rcases h4 with h | h
    · rw [h]
      rfl
    · rw [h]
      simp [truthyJ]

/-! ## Claim C8 — cursor shape: extra keys are NOT rejected -/

/-- Counterexample to the claim that `_decode_cursor` rejects every payload
that is not an object with exactly the keys `sort_at` and `id`: the base64url
encoding of `\x7b"sort_at": "a", "id": "b", "x": "c"\x7d` carries a third key
`x`, yet `_decode_cursor` accepts it and returns the whole three-key payload
(the code only truthiness-checks `payload.get("sort_at")` and
`payload.get("id")`; it never inspects the key set). -/
theorem c8_extra_key_accepted :
    _decode_cursor "eyJzb3J0X2F0IjogImEiLCAiaWQiOiAiYiIsICJ4IjogImMifQ==".data =
      some (.jobj [(jCodes "sort_at", .jstr (jCodes "a")),
        (jCodes "id", .jstr (jCodes "b")), (jCodes "x", .jstr (jCodes "c"))]) := by rfl

/-- **C8** (amended) — Cursor shape rejection as implemented: `_decode_cursor`
rejects an object payload exactly when its `sort_at` field or its `id` field is
missing or falsy; when both fields are truthy the whole payload is accepted
unchanged, regardless of how many other keys it carries, so "exactly two keys"
is not enforced. -/
theorem c8_cursor_shape_rejection :
    (∀ tok bytes raw fs, urlsafe_b64decode tok = some bytes →
        utf8Decode bytes = some raw → jsonLoads raw = some (.jobj fs) →
        (truthyJ (jsonGet fs (jCodes "sort_at")) = false ∨
         truthyJ (jsonGet fs (jCodes "id")) = false) →
        _decode_cursor tok = none) ∧
    (∀ tok bytes raw fs, urlsafe_b64decode tok = some bytes →
        utf8Decode bytes = some raw → jsonLoads raw = some (.jobj fs) →
        truthyJ (jsonGet fs (jCodes "sort_at")) = true →
        truthyJ (jsonGet fs (jCodes "id")) = true →
        _decode_cursor tok = some (.jobj fs)) := by
  constructor
  · intro tok bytes raw fs h1 h2 h3 h4
    unfold _decode_cursor
    rw [h1]
    dsimp only
    rw [h2]
    dsimp only
    rw [h3]
    dsimp only
    rcases h4 with h | h
    · rw [h]
      rfl
    · rw [h]
      simp
  · intro tok bytes raw fs h1 h2 h3 h4 h5
    unfold _decode_cursor
    rw [h1]
    dsimp only
    rw [h2]
    dsimp only
    rw [h3]
    dsimp only
    rw [h4, h5]
    rfl

/-! ## Trade listing (`fetch_trades_for_user`, db.py lines 178-295, and
`list_trades`, trades.py lines 87-114)

PostgREST compares `text` keys byte-wise (C collation); ISO-8601 `timestamptz`
strings and uuid strings are modelled as `String`s under the lexicographic
character-code order `listLtB`.  The `images` side query and the two Python
dicts `first_map` / `count_map` (db.py lines 258-276) are modelled as
function-valued maps built by the same left fold. -/

def listLtB : List Char → List Char → Bool
  | [], [] => false
  | [], _ :: _ => true
  | _ :: _, [] => false
  | a :: as, b :: bs =>
    if a.toNat < b.toNat then true
    else if b.toNat < a.toNat then false
    else listLtB as bs

theorem char_toNat_inj (a b : Char) (h : a.toNat = b.toNat) : a = b :=
  Char.eq_of_val_eq (UInt32.ext h)

theorem listLtB_irrefl : ∀ l, listLtB l l = false := by
  intro l
  induction l with
  | nil => rfl
  | cons a as ih =>
    unfold listLtB
    rw [if_neg (by omega), if_neg (by omega)]
    exact ih

theorem listLtB_asymm : ∀ l1 l2, listLtB l1 l2 = true → listLtB l2 l1 = false := by
  intro l1
  induction l1 with
  | nil =>
    intro l2 h
    cases l2 with
    | nil => exact Bool.noConfusion h
    | cons b bs => rfl
  | cons a as ih =>
    intro l2 h
    cases l2 with
    | nil => exact Bool.noConfusion h
    | cons b bs =>
      unfold listLtB at h ⊢
      split_ifs at h ⊢ <;>
        first
        | rfl
        | exact Bool.noConfusion h
        | (exfalso; omega)
        | exact ih bs h

theorem listLtB_trans : ∀ l1 l2 l3, listLtB l1 l2 = true → listLtB l2 l3 = true →
    listLtB l1 l3 = true := by
  intro l1
  induction l1 with
  | nil =>
    intro l2 l3 h1 h2
    cases l2 with
    | nil => exact Bool.noConfusion h1
    | cons b bs =>
      cases l3 with
      | nil => exact Bool.noConfusion h2
      | cons c cs => rfl
  | cons a as ih =>
    intro l2 l3 h1 h2
    cases l2 with
    | nil => exact Bool.noConfusion h1
    | cons b bs =>
      cases l3 with
      | nil => exact Bool.noConfusion h2
      | cons c cs =>
        unfold listLtB at h1 h2 ⊢
        split_ifs at h1 h2 ⊢ <;>
          first
          | rfl
          | exact Bool.noConfusion h1
          | exact Bool.noConfusion h2
          | (exfalso; omega)
          | exact ih bs cs h1 h2

theorem listLtB_conn : ∀ l1 l2, listLtB l1 l2 = false → listLtB l2 l1 = false →
    l1 = l2 := by
  intro l1
  induction l1 with
  | nil =>
    intro l2 h1 h2
    cases l2 with
    | nil => rfl
    | cons b bs => exact Bool.noConfusion h1
  | cons a as ih =>
    intro l2 h1 h2
    cases l2 with
    | nil => exact Bool.noConfusion h2
    | cons b bs =>
      unfold listLtB at h1 h2
      by_cases hab : a.toNat < b.toNat
      · rw [if_pos hab] at h1
        exact Bool.noConfusion h1
      · rw [if_neg hab] at h1
        by_cases hba : b.toNat < a.toNat
        · rw [if_pos hba] at h2
          exact Bool.noConfusion h2
        · rw [if_neg hba] at h1 h2
          rw [if_neg hab] at h2
          have hc : a = b := char_toNat_inj a b (by omega)
          rw [hc, ih bs h1 h2]

def strLt (a b : String) : Bool := listLtB a.data b.data

def afterPredB (c : String × String) (r : TradeRec) : Bool :=
  strLt r.sort_at c.1 || (r.sort_at == c.1 && strLt r.id c.2)

def descLe (a b : TradeRec) : Bool :=
  strLt b.sort_at a.sort_at ||
    (b.sort_at == a.sort_at && (strLt b.id a.id || b.id == a.id))

def tradeKey (r : TradeRec) : String × String := (r.sort_at, r.id)

def keyGtB (a b : TradeRec) : Bool := afterPredB (tradeKey a) b

theorem strLt_irrefl (a : String) : strLt a a = false := listLtB_irrefl _

theorem strLt_asymm {a b : String} (h : strLt a b = true) : strLt b a = false :=
  listLtB_asymm _ _ h

theorem strLt_trans {a b c : String} (h1 : strLt a b = true) (h2 : strLt b c = true) :
    strLt a c = true :=
  listLtB_trans _ _ _ h1 h2

theorem strLt_conn {a b : String} (h1 : strLt a b = false) (h2 : strLt b a = false) :
    a = b := by
  cases a with
  | mk l1 =>
    cases b with
    | mk l2 =>
      exact congrArg String.mk (listLtB_conn l1 l2 h1 h2)

theorem str_beq_true {a b : String} (h : a = b) : (a == b) = true := by
  rw [h]
  exact beq_self_eq_true b

theorem descLe_total (a b : TradeRec) : descLe a b = true ∨ descLe b a = true := by
  unfold descLe
  by_cases h1 : strLt b.sort_at a.sort_at = true
  · left; rw [h1]; rfl
  · by_cases h2 : strLt a.sort_at b.sort_at = true
    · right; rw [h2]; rfl
    · have hsa : b.sort_at = a.sort_at :=
        strLt_conn (Bool.not_eq_true _ ▸ h1 : strLt b.sort_at a.sort_at = false)
          (Bool.not_eq_true _ ▸ h2 : strLt a.sort_at b.sort_at = false)
      by_cases h3 : strLt b.id a.id = true
      · left
        rw [str_beq_true hsa, h3]
        simp
      · by_cases h4 : strLt a.id b.id = true
        · right
          rw [str_beq_true hsa.symm, h4]
          simp
        · have hid : b.id = a.id :=
            strLt_conn (Bool.not_eq_true _ ▸ h3) (Bool.not_eq_true _ ▸ h4)
          left
          rw [str_beq_true hsa, str_beq_true hid]
          simp

theorem descLe_iff (a b : TradeRec) : descLe a b = true ↔
    (strLt b.sort_at a.sort_at = true ∨
      (b.sort_at = a.sort_at ∧ (strLt b.id a.id = true ∨ b.id = a.id))) := by
  unfold descLe
  simp [Bool.or_eq_true, Bool.and_eq_true, beq_iff_eq]

theorem afterPredB_iff (c : String × String) (r : TradeRec) : afterPredB c r = true ↔
    (strLt r.sort_at c.1 = true ∨ (r.sort_at = c.1 ∧ strLt r.id c.2 = true)) := by
  unfold afterPredB
  simp [Bool.or_eq_true, Bool.and_eq_true, beq_iff_eq]

theorem descLe_trans (a b c : TradeRec) (h1 : descLe a b = true) (h2 : descLe b c = true) :
    descLe a c = true := by
  rw [descLe_iff] at h1 h2 ⊢
  rcases h1 with h1 | ⟨he1, hid1⟩
  · rcases h2 with h2 | ⟨he2, _⟩
    · exact Or.inl (strLt_trans h2 h1)
    · exact Or.inl (he2 ▸ h1)
  · rcases h2 with h2 | ⟨he2, hid2⟩
    · exact Or.inl (he1 ▸ h2)
    · refine Or.inr ⟨he2.trans he1, ?_⟩
      rcases hid1 with hid1 | hid1
      · rcases hid2 with hid2 | hid2
        · exact Or.inl (strLt_trans hid2 hid1)
        · exact Or.inl (hid2 ▸ hid1)
      · rcases hid2 with hid2 | hid2
        · exact Or.inl (hid1 ▸ hid2)
        · exact Or.inr (hid2.trans hid1)

theorem descLe_antisymm_key (a b : TradeRec) (h1 : descLe a b = true)
    (h2 : descLe b a = true) : b.sort_at = a.sort_at ∧ b.id = a.id := by
  rw [descLe_iff] at h1 h2
  rcases h1 with h1 | ⟨he1, hid1⟩
  · rcases h2 with h2 | ⟨he2, _⟩
    · rw [strLt_asymm h1] at h2
      exact Bool.noConfusion h2
    · rw [he2] at h1
      rw [strLt_irrefl] at h1
      exact Bool.noConfusion h1
  · rcases h2 with h2 | ⟨he2, hid2⟩
    · rw [he1] at h2
      rw [strLt_irrefl] at h2
      exact Bool.noConfusion h2
    · refine ⟨he1, ?_⟩
      rcases hid1 with hid1 | hid1
      · rcases hid2 with hid2 | hid2
        · rw [strLt_asymm hid1] at hid2
          exact Bool.noConfusion hid2
        · rw [hid2] at hid1
          rw [strLt_irrefl] at hid1
          exact Bool.noConfusion hid1
      · exact hid1

theorem descLe_strict (a b : TradeRec) (h : descLe a b = true) (hne : b.id ≠ a.id) :
    keyGtB a b = true := by
  rw [descLe_iff] at h
  unfold keyGtB tradeKey
  rw [afterPredB_iff]
  rcases h with h | ⟨he, hid⟩
  · exact Or.inl h
  · refine Or.inr ⟨he, ?_⟩
    rcases hid with hid | hid
    · exact hid
    · exact absurd hid hne

theorem keyGtB_iff (a b : TradeRec) : keyGtB a b = true ↔
    (strLt b.sort_at a.sort_at = true ∨
      (b.sort_at = a.sort_at ∧ strLt b.id a.id = true)) := by
  unfold keyGtB tradeKey
  exact afterPredB_iff _ _

theorem keyGtB_irrefl (a : TradeRec) : keyGtB a a = false := by
  unfold keyGtB tradeKey afterPredB
  rw [strLt_irrefl, strLt_irrefl]
  simp

theorem keyGtB_asymm (a b : TradeRec) (h : keyGtB a b = true) : keyGtB b a = false := by
  by_cases h2 : keyGtB b a = true
  · rw [keyGtB_iff] at h h2
    exfalso
    rcases h with h | ⟨he, hid⟩
    · rcases h2 with h2 | ⟨he2, _⟩
      · rw [strLt_asymm h] at h2
        exact Bool.noConfusion h2
      · rw [he2, strLt_irrefl] at h
        exact Bool.noConfusion h
    · rcases h2 with h2 | ⟨he2, hid2⟩
      · rw [he, strLt_irrefl] at h2
        exact Bool.noConfusion h2
      · rw [strLt_asymm hid] at hid2
        exact Bool.noConfusion hid2
  · exact Bool.not_eq_true _ ▸ h2

theorem keyGtB_trans (a b c : TradeRec) (h1 : keyGtB a b = true)
    (h2 : keyGtB b c = true) : keyGtB a c = true := by
  rw [keyGtB_iff] at h1 h2 ⊢
  rcases h1 with h1 | ⟨he1, hid1⟩
  · rcases h2 with h2 | ⟨he2, _⟩
    · exact Or.inl (strLt_trans h2 h1)
    · exact Or.inl (he2 ▸ h1)
  · rcases h2 with h2 | ⟨he2, hid2⟩
    · exact Or.inl (he1 ▸ h2)
    · exact Or.inr ⟨he2.trans he1, strLt_trans hid2 hid1⟩

theorem sorted_perm_eq {α : Type} (le : α → α → Bool) :
    ∀ (l1 l2 : List α), List.Perm l1 l2 →
    List.Pairwise (fun a b => le a b = true) l1 →
    List.Pairwise (fun a b => le a b = true) l2 →
    (∀ a ∈ l1, ∀ b ∈ l1, le a b = true → le b a = true → a = b) →
    l1 = l2 := by
  intro l1
  induction l1 with
  | nil =>
    intro l2 hp _ _ _
    exact (List.Perm.eq_nil hp.symm).symm
  | cons x xs ih =>
    intro l2 hp hs1 hs2 hanti
    cases l2 with
    | nil => exact absurd hp.eq_nil (List.cons_ne_nil x xs)
    | cons y ys =>
      have hxy : x = y := by
        by_cases hxy : x = y
        · exact hxy
        · have hxmem : x ∈ y :: ys := hp.mem_iff.mp (List.mem_cons_self x xs)
          have hymem : y ∈ x :: xs := hp.symm.mem_iff.mp (List.mem_cons_self y ys)
          have hx2 : x ∈ ys := by
            rcases List.mem_cons.mp hxmem with h | h
            · exact absurd h hxy
            · exact h
          have hy2 : y ∈ xs := by
            rcases List.mem_cons.mp hymem with h | h
            · exact absurd h.symm hxy
            · exact h
          have hlexy : le x y = true := (List.pairwise_cons.mp hs1).1 y hy2
          have hleyx : le y x = true := (List.pairwise_cons.mp hs2).1 x hx2
          exact absurd (hanti x (List.mem_cons_self x xs) y (List.mem_cons_of_mem _ hy2)
            hlexy hleyx) hxy
      subst hxy
      have hp' : List.Perm xs ys := hp.cons_inv
      have hrec := ih ys hp' (List.pairwise_cons.mp hs1).2 (List.pairwise_cons.mp hs2).2
        (fun a ha b hb hab hba =>
          hanti a (List.mem_cons_of_mem _ ha) b (List.mem_cons_of_mem _ hb) hab hba)
      rw [hrec]

theorem nodup_inj_id {l : List TradeRec} (hnd : (l.map TradeRec.id).Nodup) :
    ∀ a ∈ l, ∀ b ∈ l, a.id = b.id → a = b :=
  fun a ha b hb h => List.inj_on_of_nodup_map hnd ha hb h

theorem descLe_antisymm_of_nodup {l : List TradeRec} (hnd : (l.map TradeRec.id).Nodup) :
    ∀ a ∈ l, ∀ b ∈ l, descLe a b = true → descLe b a = true → a = b := by
  intro a ha b hb h1 h2
  exact nodup_inj_id hnd a ha b hb ((descLe_antisymm_key b a h2 h1).2)

theorem sortLe_filter_comm (p : TradeRec → Bool) (l : List TradeRec)
    (hnd : (l.map TradeRec.id).Nodup) :
    sortLe descLe (l.filter p) = (sortLe descLe l).filter p := by
  apply sorted_perm_eq descLe
  · exact (sortLe_perm descLe (l.filter p)).trans ((sortLe_perm descLe l).filter p).symm
  · exact sortLe_pairwise descLe descLe_total descLe_trans (l.filter p)
  · exact (sortLe_pairwise descLe descLe_total descLe_trans l).sublist
      (List.filter_sublist (sortLe descLe l))
  · intro a ha b hb h1 h2
    have ha' : a ∈ l :=
      List.mem_of_mem_filter ((sortLe_perm descLe (l.filter p)).mem_iff.mp ha)
    have hb' : b ∈ l :=
      List.mem_of_mem_filter ((sortLe_perm descLe (l.filter p)).mem_iff.mp hb)
    exact descLe_antisymm_of_nodup hnd a ha' b hb' h1 h2

theorem pairwise_keyGt_of_sorted {l : List TradeRec}
    (hs : List.Pairwise (fun a b => descLe a b = true) l)
    (hnd : (l.map TradeRec.id).Nodup) :
    List.Pairwise (fun a b => keyGtB a b = true) l := by
  have hne : List.Pairwise (fun a b : TradeRec => a.id ≠ b.id) l := by
    have hnd' : List.Pairwise (fun a b => a ≠ b) (l.map TradeRec.id) := hnd
    exact List.pairwise_map.mp hnd'
  exact (hs.and hne).imp (fun h => descLe_strict _ _ h.1 (fun he => h.2 he.symm))

theorem filter_afterPred_sorted :
    ∀ (l : List TradeRec), List.Pairwise (fun a b => keyGtB a b = true) l →
    ∀ (j : Nat) (x : TradeRec), l[j]? = some x →
    l.filter (fun r => afterPredB (tradeKey x) r) = l.drop (j + 1) := by
  intro l
  induction l with
  | nil => intro _ j x hx; exact absurd hx (by simp)
  | cons y ys ih =>
    intro hs j x hx
    rcases List.pairwise_cons.mp hs with ⟨hy, hys⟩
    cases j with
    | zero =>
      rw [List.getElem?_cons_zero] at hx
      have hx' : x = y := by
        injection hx with h
        exact h.symm
      rw [hx']
      rw [List.filter_cons]
      have hxx : afterPredB (tradeKey y) y = false := keyGtB_irrefl y
      rw [hxx]
      simp only [Bool.false_eq_true, if_false]
      have hall : ∀ r ∈ ys, afterPredB (tradeKey y) r = true := fun r hr => hy r hr
      rw [List.filter_eq_self.mpr hall]
      rfl
    | succ j =>
      rw [List.getElem?_cons_succ] at hx
      rw [List.filter_cons]
      have hxy : afterPredB (tradeKey x) y = false := by
        have hmem : x ∈ ys := List.getElem?_mem hx
        exact keyGtB_asymm y x (hy x hmem)
      rw [hxy]
      simp only [Bool.false_eq_true, if_false]
      rw [ih hys j x hx]
      rfl

structure ImageRec where
  trade_id : String
  s3_key : String
  width : Option Int
  height : Option Int
  created_at : String
  deriving DecidableEq, Repr

structure ImgInfo where
  s3_key : String
  width : Option Int
  height : Option Int
  deriving DecidableEq, Repr

def imgLe (a b : ImageRec) : Bool :=
  strLt a.created_at b.created_at || (a.created_at == b.created_at)

theorem imgLe_total (a b : ImageRec) : imgLe a b = true ∨ imgLe b a = true := by
  unfold imgLe
  by_cases h1 : strLt a.created_at b.created_at = true
  · left; rw [h1]; rfl
  · by_cases h2 : strLt b.created_at a.created_at = true
    · right; rw [h2]; rfl
    · left
      have he : a.created_at = b.created_at :=
        strLt_conn (Bool.not_eq_true _ ▸ h1) (Bool.not_eq_true _ ▸ h2)
      rw [str_beq_true he]
      simp

theorem imgLe_trans (a b c : ImageRec) (h1 : imgLe a b = true) (h2 : imgLe b c = true) :
    imgLe a c = true := by
  unfold imgLe at h1 h2 ⊢
  simp only [Bool.or_eq_true, beq_iff_eq] at h1 h2 ⊢
  rcases h1 with h1 | h1
  · rcases h2 with h2 | h2
    · exact Or.inl (strLt_trans h1 h2)
    · exact Or.inl (h2 ▸ h1)
  · rcases h2 with h2 | h2
    · exact Or.inl (h1 ▸ h2)
    · exact Or.inr (h1.trans h2)

def listingPred (user : String) (f : Filters) (r : TradeRec) : Bool :=
  r.user_id == user && applyFilters f r

def afterOk (after : Option (String × String)) (r : TradeRec) : Bool :=
  match after with
  | none => true
  | some c => afterPredB c r

def fetch_trade_rows (store : List TradeRec) (user : String) (f : Filters)
    (after : Option (String × String)) (lim : Nat) : List TradeRec :=
  (sortLe descLe
    (store.filter (fun r => listingPred user f r && afterOk after r))).take lim

def imgOfTrades (imgStore : List ImageRec) (ids : List String) : List ImageRec :=
  sortLe imgLe (imgStore.filter (fun im => ids.contains im.trade_id))

def mapsStep (fm : String → Option ImgInfo) (cm : String → Nat) (img : ImageRec) :
    (String → Option ImgInfo) × (String → Nat) :=
  (match fm img.trade_id with
    | some _ => fm
    | none => fun k =>
        if k == img.trade_id then some ⟨img.s3_key, img.width, img.height⟩ else fm k,
   fun k => if k == img.trade_id then cm img.trade_id + 1 else cm k)

def buildMaps (imgs : List ImageRec) : (String → Option ImgInfo) × (String → Nat) :=
  imgs.foldl (fun mc img => mapsStep mc.1 mc.2 img) (fun _ => none, fun _ => 0)

structure ShapedTrade where
  id : String
  note : Option String
  created_at : String
  taken_at : Option String
  sort_at : String
  outcome : Option String
  strategies : Option (List String)
  session : Option String
  symbol : Option String
  images : List ImgInfo
  image_count : Nat
  deriving DecidableEq, Repr

def shapeTrade (fm : String → Option ImgInfo) (cm : String → Nat) (r : TradeRec) :
    ShapedTrade :=
  { id := r.id, note := r.note, created_at := r.created_at, taken_at := r.taken_at,
    sort_at := r.sort_at, outcome := r.outcome, strategies := r.strategies,
    session := r.session, symbol := r.symbol,
    images := match fm r.id with
      | some info => [info]
      | none => [],
    image_count := cm r.id }

def fetch_trades_for_user (store : List TradeRec) (imgStore : List ImageRec)
    (user : String) (lim : Nat) (after : Option (String × String)) (f : Filters) :
    List ShapedTrade :=
  let trade_rows := fetch_trade_rows store user f after lim
  let image_rows := imgOfTrades imgStore (trade_rows.map TradeRec.id)
  let maps := buildMaps image_rows
  trade_rows.map (shapeTrade maps.1 maps.2)

def list_trades (store : List TradeRec) (imgStore : List ImageRec) (user : String)
    (lim : Nat) (cursor : Option (String × String)) (f : Filters) :
    List ShapedTrade × Option (String × String) :=
  let items := fetch_trades_for_user store imgStore user lim cursor f
  let next : Option (String × String) :=
    if items.length = lim then
      match items.getLast? with
      | some tail => if tail.sort_at == "" then none else some (tail.sort_at, tail.id)
      | none => none
    else none
  (items, next)

def paginateAux (store : List TradeRec) (imgStore : List ImageRec) (user : String)
    (lim : Nat) (f : Filters) : Nat → Option (String × String) → List (List ShapedTrade)
  | 0, _ => []
  | Nat.succ fuel, cursor =>
    let p := list_trades store imgStore user lim cursor f
    match p.2 with
    | none => [p.1]
    | some c => p.1 :: paginateAux store imgStore user lim f fuel (some c)

def paginateAll (store : List TradeRec) (imgStore : List ImageRec) (user : String)
    (lim : Nat) (f : Filters) : List (List ShapedTrade) :=
  paginateAux store imgStore user lim f (store.length + 1) none

def pairKeyGtB (p q : String × String) : Bool :=
  strLt q.1 p.1 || (q.1 == p.1 && strLt q.2 p.2)

def shapedKey (t : ShapedTrade) : String × String := (t.sort_at, t.id)

def sortedListing (store : List TradeRec) (user : String) (f : Filters) :
    List TradeRec :=
  sortLe descLe (store.filter (listingPred user f))

theorem fetch_rows_eq_filter (store : List TradeRec) (user : String) (f : Filters)
    (after : Option (String × String)) (lim : Nat)
    (hnd : (store.map TradeRec.id).Nodup) :
    fetch_trade_rows store user f after lim =
      ((sortedListing store user f).filter (afterOk after)).take lim := by
  unfold fetch_trade_rows sortedListing
  congr 1
  cases after with
  | none =>
    have h1 : store.filter (fun r => listingPred user f r && afterOk none r) =
        store.filter (listingPred user f) := by
      apply List.filter_congr
      intro r _
      exact Bool.and_true _
    rw [h1]
    symm
    apply List.filter_eq_self.mpr
    intro a _
    rfl
  | some c =>
    have hnd' : ((store.filter (listingPred user f)).map TradeRec.id).Nodup :=
      hnd.sublist ((List.filter_sublist store).map TradeRec.id)
    have h1 : store.filter (fun r => listingPred user f r && afterOk (some c) r) =
        (store.filter (listingPred user f)).filter (fun r => afterPredB c r) := by
      rw [List.filter_filter]
      apply List.filter_congr
      intro r _
      exact Bool.and_comm _ _
    rw [h1]
    exact sortLe_filter_comm (fun r => afterPredB c r) (store.filter (listingPred user f))
      hnd'

theorem map_shapedKey_shape (fm : String → Option ImgInfo) (cm : String → Nat)
    (rows : List TradeRec) :
    ((rows.map (shapeTrade fm cm)).map shapedKey) = rows.map tradeKey := by
  rw [List.map_map]
  induction rows with
  | nil => rfl
  | cons r rs ih =>
    rw [List.map_cons, List.map_cons, ih]
    rfl

theorem list_trades_fst (store : List TradeRec) (imgStore : List ImageRec)
    (user : String) (lim : Nat) (cursor : Option (String × String)) (f : Filters) :
    (list_trades store imgStore user lim cursor f).1 =
      fetch_trades_for_user store imgStore user lim cursor f := rfl

theorem fetch_trades_eq (store : List TradeRec) (imgStore : List ImageRec)
    (user : String) (lim : Nat) (after : Option (String × String)) (f : Filters) :
    fetch_trades_for_user store imgStore user lim after f =
      (fetch_trade_rows store user f after lim).map
        (shapeTrade
          (buildMaps (imgOfTrades imgStore
            ((fetch_trade_rows store user f after lim).map TradeRec.id))).1
          (buildMaps (imgOfTrades imgStore
            ((fetch_trade_rows store user f after lim).map TradeRec.id))).2) := rfl

theorem mem_sorted_listing {store : List TradeRec} {user : String} {f : Filters}
    {x : TradeRec} (hx : x ∈ sortedListing store user f) :
    x ∈ store ∧ x.user_id = user ∧ applyFilters f x = true := by
  unfold sortedListing at hx
  have hx2 := List.mem_filter.mp ((sortLe_perm descLe _).mem_iff.mp hx)
  rcases hx2 with ⟨hmem, hp⟩
  simp only [listingPred, Bool.and_eq_true, beq_iff_eq] at hp
  exact ⟨hmem, hp.1, hp.2⟩


theorem sortedListing_nodup (store : List TradeRec) (user : String) (f : Filters)
    (hnd : (store.map TradeRec.id).Nodup) :
    ((sortedListing store user f).map TradeRec.id).Nodup := by
  unfold sortedListing
  exact (List.Perm.nodup_iff ((sortLe_perm descLe _).map TradeRec.id)).mpr
    (hnd.sublist ((List.filter_sublist store).map TradeRec.id))

theorem sortedListing_pairwise_key (store : List TradeRec) (user : String) (f : Filters)
    (hnd : (store.map TradeRec.id).Nodup) :
    List.Pairwise (fun a b => keyGtB a b = true) (sortedListing store user f) := by
  apply pairwise_keyGt_of_sorted
  · unfold sortedListing
    exact sortLe_pairwise descLe descLe_total descLe_trans _
  · exact sortedListing_nodup store user f hnd

theorem paginate_join_aux (store : List TradeRec) (imgStore : List ImageRec)
    (user : String) (f : Filters) (lim : Nat) (hlim : 1 ≤ lim)
    (hnd : (store.map TradeRec.id).Nodup)
    (hsa : ∀ r ∈ store, r.user_id = user → r.sort_at ≠ "") :
    ∀ (fuel : Nat) (cursor : Option (String × String)) (m : Nat),
      (sortedListing store user f).filter (afterOk cursor) =
        (sortedListing store user f).drop m →
      (sortedListing store user f).length - m < fuel →
      ((paginateAux store imgStore user lim f fuel cursor).flatten).map shapedKey =
        ((sortedListing store user f).drop m).map tradeKey := by
  intro fuel
  induction fuel with
  | zero =>
    intro cursor m _ hf
    exact absurd hf (Nat.not_lt_zero _)
  | succ fuel ih =>
    intro cursor m hm hf
    have hkey := sortedListing_pairwise_key store user f hnd
    have hrows : fetch_trade_rows store user f cursor lim =
        ((sortedListing store user f).drop m).take lim := by
      rw [fetch_rows_eq_filter store user f cursor lim hnd, hm]
    have hitems : (fetch_trades_for_user store imgStore user lim cursor f).length =
        (fetch_trade_rows store user f cursor lim).length := by
      rw [fetch_trades_eq, List.length_map]
    by_cases hcase : (sortedListing store user f).length - m < lim
    · -- final page: fewer than `lim` rows remain
      have hlen : (fetch_trades_for_user store imgStore user lim cursor f).length =
          (sortedListing store user f).length - m := by
        rw [hitems, hrows, List.length_take, List.length_drop]
        omega
      have hne : ¬ (fetch_trades_for_user store imgStore user lim cursor f).length = lim := by
        omega
      have hnext : (list_trades store imgStore user lim cursor f).2 = none := by
        show (if (fetch_trades_for_user store imgStore user lim cursor f).length = lim
          then _ else none) = none
        rw [if_neg hne]
      simp only [paginateAux]
      rw [hnext]
      dsimp only
      show ([(list_trades store imgStore user lim cursor f).1].flatten).map shapedKey = _
      rw [List.flatten]
      rw [List.flatten]
      rw [List.append_nil]
      rw [list_trades_fst, fetch_trades_eq, map_shapedKey_shape, hrows]
      rw [List.take_of_length_le (by rw [List.length_drop]; omega)]
    · -- full page: exactly `lim` rows, a next cursor is produced
      have hge : lim ≤ (sortedListing store user f).length - m := Nat.le_of_not_lt hcase
      have hlenrows : (fetch_trade_rows store user f cursor lim).length = lim := by
        rw [hrows, List.length_take, List.length_drop]
        omega
      have hlen : (fetch_trades_for_user store imgStore user lim cursor f).length = lim := by
        rw [hitems, hlenrows]
      have hidx : m + (lim - 1) < (sortedListing store user f).length := by omega
      obtain ⟨x, hx⟩ : ∃ x, (sortedListing store user f)[m + (lim - 1)]? = some x :=
        ⟨_, (List.getElem?_eq_some_getElem_iff _ _ hidx).mpr trivial⟩
      have hlast : (fetch_trade_rows store user f cursor lim).getLast? = some x := by
        rw [hrows, List.getLast?_eq_getElem?, List.length_take, List.length_drop]
        have hmin : min lim ((sortedListing store user f).length - m) = lim := by omega
        rw [hmin, List.getElem?_take_of_lt (by omega : lim - 1 < lim), List.getElem?_drop]
        exact hx
      have hlasti : (fetch_trades_for_user store imgStore user lim cursor f).getLast? =
          some (shapeTrade
            (buildMaps (imgOfTrades imgStore
              ((fetch_trade_rows store user f cursor lim).map TradeRec.id))).1
            (buildMaps (imgOfTrades imgStore
              ((fetch_trade_rows store user f cursor lim).map TradeRec.id))).2 x) := by
        rw [fetch_trades_eq, List.getLast?_map, hlast]
        rfl
      have hxmem : x ∈ sortedListing store user f := List.getElem?_mem hx
      obtain ⟨hxs, hxu, _⟩ := mem_sorted_listing hxmem
      have hxsa : x.sort_at ≠ "" := hsa x hxs hxu
      have hnext : (list_trades store imgStore user lim cursor f).2 =
          some (x.sort_at, x.id) := by
        show (if (fetch_trades_for_user store imgStore user lim cursor f).length = lim
          then _ else none) = _
        rw [if_pos hlen, hlasti]
        dsimp only
        show (if (x.sort_at == "") = true then none else some (x.sort_at, x.id)) = _
        rw [beq_eq_false_iff_ne.mpr hxsa]
        rfl
      have hm' : (sortedListing store user f).filter (afterOk (some (x.sort_at, x.id))) =
          (sortedListing store user f).drop (m + lim) := by
        have hfil := filter_afterPred_sorted (sortedListing store user f) hkey
          (m + (lim - 1)) x hx
        have h1 : (sortedListing store user f).filter (afterOk (some (x.sort_at, x.id))) =
            (sortedListing store user f).filter (fun r => afterPredB (tradeKey x) r) := by
          apply List.filter_congr
          intro r _
          rfl
        rw [h1, hfil]
        congr 1
        omega
      have hrec := ih (some (x.sort_at, x.id)) (m + lim) hm' (by omega)
      simp only [paginateAux]
      rw [hnext]
      dsimp only
      rw [List.flatten]
      rw [List.map_append]
      rw [list_trades_fst, fetch_trades_eq, map_shapedKey_shape, hrows, hrec]
      have hdd : (sortedListing store user f).drop (m + lim) =
          ((sortedListing store user f).drop m).drop lim :=
        (List.drop_drop lim m _).symm
      rw [hdd, ← List.map_append, List.take_append_drop]

theorem list_trades_next (store : List TradeRec) (imgStore : List ImageRec)
    (user : String) (lim : Nat) (cursor : Option (String × String)) (f : Filters) :
    (list_trades store imgStore user lim cursor f).2 =
      (if (fetch_trades_for_user store imgStore user lim cursor f).length = lim then
        match (fetch_trades_for_user store imgStore user lim cursor f).getLast? with
        | some tail => if tail.sort_at == "" then none else some (tail.sort_at, tail.id)
        | none => none
      else none) := rfl

/-- **C1** — Keyset pagination is lossless and ordered: for every owner, page
size limit in 1..50, filter set, and fixed store whose trade ids are distinct
and whose owned trades carry a non-empty `sort_at`, (i) concatenating the pages
obtained by repeatedly following the returned cursor yields exactly the keys of
the full matching owned set in `ORDER BY sort_at DESC, id DESC` order (no
duplicates, no omissions), (ii) that concatenation is strictly descending in
`(sort_at, id)`, and (iii) a single `list_trades` call returns a next-page
cursor exactly when the page holds exactly `limit` items, and that cursor is
the last returned item's `(sort_at, id)`. -/
theorem c1_keyset_pagination (store : List TradeRec) (imgStore : List ImageRec)
    (user : String) (f : Filters) (lim : Nat)
    (hlim1 : 1 ≤ lim) (hlim50 : lim ≤ 50)
    (hnd : (store.map TradeRec.id).Nodup)
    (hsa : ∀ r ∈ store, r.user_id = user → r.sort_at ≠ "") :
    (((paginateAll store imgStore user lim f).flatten).map shapedKey =
        (sortedListing store user f).map tradeKey)
    ∧ List.Pairwise (fun p q => pairKeyGtB p q = true)
        (((paginateAll store imgStore user lim f).flatten).map shapedKey)
    ∧ (∀ cursor, ((list_trades store imgStore user lim cursor f).2).isSome = true ↔
        (list_trades store imgStore user lim cursor f).1.length = lim)
    ∧ (∀ cursor c, (list_trades store imgStore user lim cursor f).2 = some c →
        ((list_trades store imgStore user lim cursor f).1.getLast?).map shapedKey =
          some c) := by
  have hjoin : ((paginateAll store imgStore user lim f).flatten).map shapedKey =
      (sortedListing store user f).map tradeKey := by
    have h0 : (sortedListing store user f).filter (afterOk none) =
        (sortedListing store user f).drop 0 := by
      rw [List.drop_zero]
      apply List.filter_eq_self.mpr
      intro a _
      rfl
    have hlen : (sortedListing store user f).length ≤ store.length := by
      unfold sortedListing
      rw [(sortLe_perm descLe _).length_eq]
      exact List.length_filter_le _ _
    have hmain := paginate_join_aux store imgStore user f lim hlim1 hnd hsa
      (store.length + 1) none 0 h0 (by omega)
    rw [List.drop_zero] at hmain
    exact hmain
  refine ⟨hjoin, ?_, ?_, ?_⟩
  · rw [hjoin]
    have hkey := sortedListing_pairwise_key store user f hnd
    exact List.pairwise_map.mpr (hkey.imp (fun h => h))
  · intro cursor
    rw [list_trades_fst, list_trades_next]
    constructor
    · intro hsome
      by_cases hleneq : (fetch_trades_for_user store imgStore user lim cursor f).length = lim
      · exact hleneq
      · rw [if_neg hleneq] at hsome
        exact Bool.noConfusion hsome
    · intro hleneq
      rw [if_pos hleneq]
      have hrowlen : (fetch_trade_rows store user f cursor lim).length = lim := by
        have := hleneq
        rw [fetch_trades_eq, List.length_map] at this
        exact this
      have hne : fetch_trade_rows store user f cursor lim ≠ [] := by
        intro h0
        rw [h0] at hrowlen
        simp at hrowlen
        omega
      obtain ⟨y, hy⟩ : ∃ y, (fetch_trade_rows store user f cursor lim).getLast? = some y :=
        Option.isSome_iff_exists.mp (List.getLast?_isSome.mpr hne)
      have hymem : y ∈ sortedListing store user f := by
        have h1 : y ∈ fetch_trade_rows store user f cursor lim :=
          List.mem_of_mem_getLast? hy
        rw [fetch_rows_eq_filter store user f cursor lim hnd] at h1
        exact List.mem_of_mem_filter (List.take_subset _ _ h1)
      obtain ⟨hys, hyu, _⟩ := mem_sorted_listing hymem
      have hysa : y.sort_at ≠ "" := hsa y hys hyu
      have hglast : (fetch_trades_for_user store imgStore user lim cursor f).getLast? =
          some (shapeTrade
            (buildMaps (imgOfTrades imgStore
              ((fetch_trade_rows store user f cursor lim).map TradeRec.id))).1
            (buildMaps (imgOfTrades imgStore
              ((fetch_trade_rows store user f cursor lim).map TradeRec.id))).2 y) := by
        rw [fetch_trades_eq, List.getLast?_map, hy]
        rfl
      rw [hglast]
      dsimp only
      show (if (y.sort_at == "") = true then none
        else some (y.sort_at, y.id) : Option (String × String)).isSome = true
      rw [beq_eq_false_iff_ne.mpr hysa]
      rfl
  · intro cursor c hc
    rw [list_trades_next] at hc
    rw [list_trades_fst]
    by_cases hleneq : (fetch_trades_for_user store imgStore user lim cursor f).length = lim
    · rw [if_pos hleneq] at hc
      cases hg : (fetch_trades_for_user store imgStore user lim cursor f).getLast? with
      | none =>
        rw [hg] at hc
        exact Option.noConfusion hc
      | some tail =>
        rw [hg] at hc
        dsimp only at hc
        by_cases hb : (tail.sort_at == "") = true
        · rw [if_pos hb] at hc
          exact Option.noConfusion hc
        · rw [if_neg hb] at hc
          injection hc with hc
          rw [← hc]
          rfl
    · rw [if_neg hleneq] at hc
      exact Option.noConfusion hc

theorem imgLe_refl (a : ImageRec) : imgLe a a = true := by
  unfold imgLe
  rw [beq_self_eq_true]
  simp

theorem foldl_maps_snd (imgs : List ImageRec) :
    ∀ (mc : (String → Option ImgInfo) × (String → Nat)) (tid : String),
    ((imgs.foldl (fun mc img => mapsStep mc.1 mc.2 img) mc).2) tid =
      mc.2 tid + imgs.countP (fun im => im.trade_id == tid) := by
  induction imgs with
  | nil =>
    intro mc tid
    simp
  | cons img rest ih =>
    intro mc tid
    rw [List.foldl_cons, List.countP_cons]
    rw [ih (mapsStep mc.1 mc.2 img) tid]
    have hsnd : (mapsStep mc.1 mc.2 img).2 tid =
        if (tid == img.trade_id) = true then mc.2 img.trade_id + 1 else mc.2 tid := rfl
    rw [hsnd]
    by_cases h : tid = img.trade_id
    · rw [if_pos (str_beq_true h)]
      rw [if_pos (str_beq_true h.symm)]
      rw [h]
      omega
    · rw [if_neg (by simp [h])]
      rw [if_neg (by
        simp only [beq_iff_eq]
        exact fun hh => h hh.symm)]
      omega

theorem foldl_maps_fst (imgs : List ImageRec) :
    ∀ (mc : (String → Option ImgInfo) × (String → Nat)) (tid : String),
    ((imgs.foldl (fun mc img => mapsStep mc.1 mc.2 img) mc).1) tid =
      (match mc.1 tid with
        | some v => some v
        | none => (imgs.find? (fun im => im.trade_id == tid)).map
            (fun im => (⟨im.s3_key, im.width, im.height⟩ : ImgInfo))) := by
  induction imgs with
  | nil =>
    intro mc tid
    rw [List.foldl_nil, List.find?_nil]
    cases mc.1 tid with
    | some v => rfl
    | none => rfl
  | cons img rest ih =>
    intro mc tid
    rw [List.foldl_cons]
    rw [ih (mapsStep mc.1 mc.2 img) tid]
    cases hft : mc.1 img.trade_id with
    | some w =>
      have hfst : (mapsStep mc.1 mc.2 img).1 = mc.1 := by
        unfold mapsStep
        rw [hft]
      rw [hfst]
      by_cases h : img.trade_id = tid
      · rw [← h, hft]
      · rw [List.find?_cons_of_neg rest (by
          simp only [beq_iff_eq]
          exact h)]
    | none =>
      have hfst : (mapsStep mc.1 mc.2 img).1 = fun k =>
          if k == img.trade_id then some ⟨img.s3_key, img.width, img.height⟩
          else mc.1 k := by
        unfold mapsStep
        rw [hft]
      rw [hfst]
      dsimp only
      by_cases h : img.trade_id = tid
      · have hbeq : (tid == img.trade_id) = true := str_beq_true h.symm
        rw [if_pos hbeq, ← h, hft]
        rw [@List.find?_cons_of_pos ImageRec (fun im => im.trade_id == img.trade_id)
          img rest (beq_self_eq_true _)]
        rfl
      · have hbeq : ¬ (tid == img.trade_id) = true := by
          simp only [beq_iff_eq]
          exact fun hh => h hh.symm
        rw [if_neg hbeq]
        rw [List.find?_cons_of_neg rest (by
          simp only [beq_iff_eq]
          exact h)]

theorem find?_sorted_min (p : ImageRec → Bool) :
    ∀ (l : List ImageRec), List.Pairwise (fun a b => imgLe a b = true) l →
    ∀ im, l.find? p = some im → p im = true ∧ im ∈ l ∧
      ∀ im2 ∈ l, p im2 = true → imgLe im im2 = true := by
  intro l
  induction l with
  | nil =>
    intro _ im h
    exact Option.noConfusion h
  | cons x xs ih =>
    intro hs im h
    rcases List.pairwise_cons.mp hs with ⟨hx, hxs⟩
    by_cases hp : p x = true
    · rw [List.find?_cons_of_pos xs hp] at h
      injection h with h
      subst h
      refine ⟨hp, List.mem_cons_self _ _, ?_⟩
      intro im2 h2 _
      rcases List.mem_cons.mp h2 with h2 | h2
      · rw [h2]
        exact imgLe_refl _
      · exact hx im2 h2
    · rw [List.find?_cons_of_neg xs (by
        rw [Bool.not_eq_true] at hp
        rw [hp]
        exact Bool.false_ne_true)] at h
      obtain ⟨hpim, hmem, hmin⟩ := ih hxs im h
      refine ⟨hpim, List.mem_cons_of_mem _ hmem, ?_⟩
      intro im2 h2 hp2
      rcases List.mem_cons.mp h2 with h2 | h2
      · rw [h2] at hp2
        exact absurd hp2 hp
      · exact hmin im2 h2 hp2

theorem buildMaps_snd (imgs : List ImageRec) (tid : String) :
    (buildMaps imgs).2 tid = imgs.countP (fun im => im.trade_id == tid) := by
  unfold buildMaps
  rw [foldl_maps_snd]
  simp

theorem buildMaps_fst (imgs : List ImageRec) (tid : String) :
    (buildMaps imgs).1 tid = (imgs.find? (fun im => im.trade_id == tid)).map
      (fun im => (⟨im.s3_key, im.width, im.height⟩ : ImgInfo)) := by
  unfold buildMaps
  rw [foldl_maps_fst]

theorem shape_images_spec (imgStore : List ImageRec) (ids : List String) (r : TradeRec)
    (hin : r.id ∈ ids) :
    ((shapeTrade (buildMaps (imgOfTrades imgStore ids)).1
        (buildMaps (imgOfTrades imgStore ids)).2 r).image_count
      = imgStore.countP (fun im => im.trade_id == r.id)) ∧
    ((∀ im ∈ imgStore, ¬ im.trade_id = r.id) →
      (shapeTrade (buildMaps (imgOfTrades imgStore ids)).1
        (buildMaps (imgOfTrades imgStore ids)).2 r).images = []) ∧
    (∀ im0 ∈ imgStore, im0.trade_id = r.id →
      ∃ im ∈ imgStore, im.trade_id = r.id ∧
        (∀ im2 ∈ imgStore, im2.trade_id = r.id →
          strLt im2.created_at im.created_at = false) ∧
        (shapeTrade (buildMaps (imgOfTrades imgStore ids)).1
          (buildMaps (imgOfTrades imgStore ids)).2 r).images =
          [⟨im.s3_key, im.width, im.height⟩]) := by
  have hperm : List.Perm (imgOfTrades imgStore ids)
      (imgStore.filter (fun im => ids.contains im.trade_id)) := by
    unfold imgOfTrades
    exact sortLe_perm imgLe _
  have hsorted : List.Pairwise (fun a b => imgLe a b = true) (imgOfTrades imgStore ids) := by
    unfold imgOfTrades
    exact sortLe_pairwise imgLe imgLe_total imgLe_trans _
  refine ⟨?_, ?_, ?_⟩
  · show (buildMaps (imgOfTrades imgStore ids)).2 r.id = _
    rw [buildMaps_snd]
    rw [hperm.countP_eq]
    rw [List.countP_filter]
    apply List.countP_congr
    intro a _
    constructor
    · intro h
      exact (Bool.and_eq_true _ _ ▸ h).1
    · intro h
      have hq : ids.contains a.trade_id = true := by
        rw [beq_iff_eq.mp h]
        exact List.elem_eq_true_of_mem hin
      rw [h, hq]
      rfl
  · intro hnone
    show (match (buildMaps (imgOfTrades imgStore ids)).1 r.id with
      | some info => [info]
      | none => ([] : List ImgInfo)) = []
    have hfind : (imgOfTrades imgStore ids).find? (fun im => im.trade_id == r.id) = none := by
      apply List.find?_eq_none.mpr
      intro a ha
      have ha2 : a ∈ imgStore :=
        List.mem_of_mem_filter (hperm.mem_iff.mp ha)
      simp only [beq_iff_eq]
      exact hnone a ha2
    rw [buildMaps_fst, hfind]
    rfl
  · intro im0 h0 he0
    have hmem0 : im0 ∈ imgOfTrades imgStore ids := by
      apply hperm.mem_iff.mpr
      apply List.mem_filter.mpr
      refine ⟨h0, ?_⟩
      rw [he0]
      exact List.elem_eq_true_of_mem hin
    obtain ⟨u, hu⟩ : ∃ u, (imgOfTrades imgStore ids).find?
        (fun im => im.trade_id == r.id) = some u :=
      Option.isSome_iff_exists.mp
        (List.find?_isSome.mpr ⟨im0, hmem0, str_beq_true he0⟩)
    obtain ⟨hpu, humem, humin⟩ := find?_sorted_min _ _ hsorted u hu
    refine ⟨u, List.mem_of_mem_filter (hperm.mem_iff.mp humem), beq_iff_eq.mp hpu, ?_, ?_⟩
    · intro im2 h2 he2
      have hmem2 : im2 ∈ imgOfTrades imgStore ids := by
        apply hperm.mem_iff.mpr
        apply List.mem_filter.mpr
        refine ⟨h2, ?_⟩
        rw [he2]
        exact List.elem_eq_true_of_mem hin
      have hle := humin im2 hmem2 (str_beq_true he2)
      unfold imgLe at hle
      rcases Bool.or_eq_true _ _ ▸ hle with hlt | heq
      · exact strLt_asymm hlt
      · rw [beq_iff_eq.mp heq]
        exact strLt_irrefl _
    · show (match (buildMaps (imgOfTrades imgStore ids)).1 r.id with
        | some info => [info]
        | none => ([] : List ImgInfo)) = _
      rw [buildMaps_fst, hu]
      rfl

/-- **C9** — Listing image annotation: every trade returned by the trade
listing has `image_count` equal to the total number of stored images attached
to that trade; its `images` list is empty when the trade has no stored images,
and otherwise holds exactly the key/width/height of an attached image whose
`created_at` no other attached image strictly precedes (the earliest-created
image under the ascending `created_at` ordering of the image query). -/
theorem c9_listing_image_annotation (store : List TradeRec) (imgStore : List ImageRec)
    (user : String) (lim : Nat) (after : Option (String × String)) (f : Filters) :
    ∀ t ∈ (list_trades store imgStore user lim after f).1,
      (t.image_count = imgStore.countP (fun im => im.trade_id == t.id)) ∧
      ((∀ im ∈ imgStore, ¬ im.trade_id = t.id) → t.images = []) ∧
      (∀ im0 ∈ imgStore, im0.trade_id = t.id →
        ∃ im ∈ imgStore, im.trade_id = t.id ∧
          (∀ im2 ∈ imgStore, im2.trade_id = t.id →
            strLt im2.created_at im.created_at = false) ∧
          t.images = [⟨im.s3_key, im.width, im.height⟩]) := by
  intro t ht
  rw [list_trades_fst, fetch_trades_eq] at ht
  obtain ⟨r, hr, rfl⟩ := List.mem_map.mp ht
  exact shape_images_spec imgStore
    ((fetch_trade_rows store user f after lim).map TradeRec.id) r
    (List.mem_map_of_mem TradeRec.id hr)

def c1SampleTrade : TradeRec :=
  ⟨"t1", "u", "2024-01-02", none, "2024-01-01", none, none, none, none, none, none⟩

def c1SampleFilters : Filters := ⟨[], [], [], []⟩

theorem c1_keyset_pagination_witness :
    1 ≤ 1 ∧ (1 : Nat) ≤ 50 ∧
    (([c1SampleTrade].map TradeRec.id).Nodup) ∧
    (∀ r ∈ [c1SampleTrade], r.user_id = "u" → r.sort_at ≠ "") ∧
    ((((paginateAll [c1SampleTrade] [] "u" 1 c1SampleFilters).flatten).map shapedKey =
        (sortedListing [c1SampleTrade] "u" c1SampleFilters).map tradeKey)
      ∧ List.Pairwise (fun p q => pairKeyGtB p q = true)
          (((paginateAll [c1SampleTrade] [] "u" 1 c1SampleFilters).flatten).map shapedKey)
      ∧ (∀ cursor,
          ((list_trades [c1SampleTrade] [] "u" 1 cursor c1SampleFilters).2).isSome = true ↔
          (list_trades [c1SampleTrade] [] "u" 1 cursor c1SampleFilters).1.length = 1)
      ∧ (∀ cursor c,
          (list_trades [c1SampleTrade] [] "u" 1 cursor c1SampleFilters).2 = some c →
          ((list_trades [c1SampleTrade] [] "u" 1 cursor c1SampleFilters).1.getLast?).map
            shapedKey = some c)) :=
  ⟨by decide, by decide, by decide, by decide,
    c1_keyset_pagination [c1SampleTrade] [] "u" c1SampleFilters 1
      (by decide) (by decide) (by decide) (by decide)⟩

def c9SampleImage1 : ImageRec := ⟨"t1", "k1", none, none, "2024-01-01"⟩
def c9SampleImage2 : ImageRec := ⟨"t1", "k2", none, none, "2024-01-02"⟩

def c9SampleShaped : ShapedTrade :=
  ⟨"t1", none, "2024-01-01", none, "2024-01-02", none, none, none, none,
    [⟨"k1", none, none⟩], 2⟩

theorem c9_listing_image_annotation_witness :
    (c9SampleShaped ∈
      (list_trades [c1SampleTrade] [c9SampleImage1, c9SampleImage2] "u" 1 none
        c1SampleFilters).1) ∧
    ((c9SampleShaped.image_count =
        ([c9SampleImage1, c9SampleImage2].countP
          (fun im => im.trade_id == c9SampleShaped.id))) ∧
      ((∀ im ∈ [c9SampleImage1, c9SampleImage2], ¬ im.trade_id = c9SampleShaped.id) →
        c9SampleShaped.images = []) ∧
      (∀ im0 ∈ [c9SampleImage1, c9SampleImage2], im0.trade_id = c9SampleShaped.id →
        ∃ im ∈ [c9SampleImage1, c9SampleImage2], im.trade_id = c9SampleShaped.id ∧
          (∀ im2 ∈ [c9SampleImage1, c9SampleImage2], im2.trade_id = c9SampleShaped.id →
            strLt im2.created_at im.created_at = false) ∧
          c9SampleShaped.images = [⟨im.s3_key, im.width, im.height⟩])) :=
  ⟨by decide,
    c9_listing_image_annotation [c1SampleTrade] [c9SampleImage1, c9SampleImage2] "u" 1
      none c1SampleFilters c9SampleShaped (by decide)⟩
